import Mathlib

/-!
Verification of the XML correction engine of `xml-boehringer-corrector`
(`src/app.py`), as a shallow embedding in Lean 4.

The embedding mirrors the Python source:
* `XmlNode` models an `xml.etree.ElementTree` element (tag, attributes,
  text, tail, children).
* `pystrip`, `pyzfill`, `pysplitFirst` model the Python string methods
  `str.strip()`, `str.zfill(width)` (sign-aware, as in CPython) and
  `str.split()[0]` used by the source.
* `find_order_number`, `correct_xml` are translated line by line from
  `app.py`; fallible Python code (exceptions) is translated with
  `Except String`, the error string being `str(e)` of the exception the
  Python code would raise.
* the batch loop of `app.py` (lines 212-284) is `processBatch`; the
  statistics block (lines 294-308) is embedded below it.
-/

set_option maxHeartbeats 1000000

namespace App

/-- Python whitespace characters recognised by `str.strip()` / `str.split()`
(restricted to the ASCII range, which is all the source ever meets). -/
def isPySpace (c : Char) : Bool :=
  c == ' ' || c == '\t' || c == '\n' || c == '\x0d' || c == '\x0b' || c == '\x0c'

/-- `str.strip()` on the character list: drop whitespace from both ends. -/
def pystripList (l : List Char) : List Char :=
  ((l.dropWhile isPySpace).reverse.dropWhile isPySpace).reverse

/-- Python `str.strip()`. -/
def pystrip (s : String) : String := ⟨pystripList s.data⟩

/-- CPython `str.zfill(width)` on the character list: if the string is
shorter than `width`, pad with `'0'` on the left, keeping a leading
`'+'`/`'-'` sign in front of the padding. -/
def pyzfillList (l : List Char) (w : Nat) : List Char :=
  if w ≤ l.length then l
  else
    match l with
    | [] => List.replicate w '0'
    | c :: cs =>
      if c == '+' || c == '-' then c :: (List.replicate (w - (cs.length + 1)) '0' ++ cs)
      else List.replicate (w - (c :: cs).length) '0' ++ (c :: cs)

/-- Python `str.zfill(width)`. -/
def pyzfill (s : String) (w : Nat) : String := ⟨pyzfillList s.data w⟩

/-- Python `s.split()[0]`: the first maximal run of non-whitespace
characters, or `none` when `s.split()` is empty (then the Python source
raises `IndexError`). -/
def pysplitFirstList (l : List Char) : Option (List Char) :=
  match l.dropWhile isPySpace with
  | [] => none
  | c :: cs => some ((c :: cs).takeWhile (fun a => !isPySpace a))

/-- Python `s.split()[0]` on strings. -/
def pysplitFirst (s : String) : Option String :=
  (pysplitFirstList s.data).map (fun l => ⟨l⟩)

/-- The identifier normalization of `app.py` line 79 / line 85:
`value.strip().zfill(6)`. -/
def normalize (s : String) : String := pyzfill (pystrip s) 6

/-- An `xml.etree.ElementTree` element: tag, attribute list (in document
order, keys unique), text, tail, children. -/
inductive XmlNode : Type where
  | mk (tag : String) (attrib : List (String × String)) (text : Option String)
       (tail : Option String) (children : List XmlNode)

namespace XmlNode

def tag : XmlNode → String
  | .mk t _ _ _ _ => t

def attrib : XmlNode → List (String × String)
  | .mk _ a _ _ _ => a

def text : XmlNode → Option String
  | .mk _ _ x _ _ => x

def tail : XmlNode → Option String
  | .mk _ _ _ tl _ => tl

def children : XmlNode → List XmlNode
  | .mk _ _ _ _ cs => cs

/-- Replace the children list, keeping every other field. -/
def setChildren : XmlNode → List XmlNode → XmlNode
  | .mk t a x tl _, cs => .mk t a x tl cs

/-- `elem.text = s` in Python. -/
def setText : XmlNode → String → XmlNode
  | .mk t a _ tl cs, s => .mk t a (some s) tl cs

end XmlNode



/-! ## Tree search: `root.find(".//tag")`, `root.iter()`, paths

`ElementTree.find(".//tag")` returns the first element with the given tag
among the proper descendants of the node, in document (preorder) order.
`findIn` searches a whole subtree (node included) and also returns the
index path of the hit; `findInList` searches a forest. -/

mutual

/-- First element tagged `tg` in the subtree rooted at `n` (including `n`
itself), with its index path relative to `n`; preorder. -/
def findIn (tg : String) : XmlNode → Option (List Nat × XmlNode)
  | .mk t a x tl cs =>
    if t == tg then some ([], .mk t a x tl cs)
    else
      match findInList tg cs with
      | some (i, p, m) => some (i :: p, m)
      | none => none

/-- First element tagged `tg` in a forest (preorder), with the index of
the tree it lies in and its path inside that tree. -/
def findInList (tg : String) : List XmlNode → Option (Nat × (List Nat × XmlNode))
  | [] => none
  | c :: cs =>
    match findIn tg c with
    | some (p, m) => some (0, p, m)
    | none =>
      match findInList tg cs with
      | some (i, p, m) => some (i + 1, p, m)
      | none => none

end

/-- `root.find(".//tg")` together with the index path of the hit relative
to `root` (the root itself is not a candidate, as in ElementTree). -/
def findDescPair (root : XmlNode) (tg : String) : Option (List Nat × XmlNode) :=
  match findInList tg root.children with
  | some (i, p, m) => some (i :: p, m)
  | none => none

/-- `parent.find(tg)` (no `.//`): first direct child with the tag. -/
def findChild (cs : List XmlNode) (tg : String) : Option XmlNode :=
  cs.find? (fun c => c.tag == tg)

/-- Subtree of `n` at an index path (`none` when the path is invalid). -/
def getPath (n : XmlNode) : List Nat → Option XmlNode
  | [] => some n
  | i :: p =>
    match n.children[i]? with
    | some c => getPath c p
    | none => none

/-- Replace the subtree of `n` at an index path (identity when the path
is invalid); this is how an in-place mutation of a found element is
rendered functionally. -/
def setPath (n : XmlNode) : List Nat → XmlNode → XmlNode
  | [], c => c
  | i :: p, c =>
    match n.children[i]? with
    | some ch => n.setChildren (n.children.set i (setPath ch p c))
    | none => n

mutual

/-- `n.iter()`: the subtree of `n` in document (preorder) order, `n`
included. -/
def preorder (n : XmlNode) : List XmlNode :=
  match n with
  | .mk t a x tl cs => .mk t a x tl cs :: preorderList cs

/-- Preorder traversal of a forest. -/
def preorderList : List XmlNode → List XmlNode
  | [] => []
  | c :: cs => preorder c ++ preorderList cs

end

/-! ## `find_order_number` (app.py lines 66-87) -/

/-- The element names probed by `find_order_number`, in precedence order
(app.py lines 68-74). -/
def searchNames : List String :=
  ["OrderNumber", "CommandNumber", "NumeroCommande", "ContractNumber", "Reference"]

/-- The attribute names probed by `find_order_number` (app.py line 83). -/
def attrNames : List String :=
  ["orderNumber", "commandNumber", "numero", "ref"]

mutual

/-- The attribute search of `find_order_number` (app.py lines 82-85): for
each element in `root.iter()` order, probe the candidate attribute names
in order; return `(value, attribute name)` of the first hit. -/
def attrSearch : XmlNode → Option (String × String)
  | .mk _t a _x _tl cs =>
    match attrNames.findSome? (fun nm => (List.lookup nm a).map (fun v => (v, nm))) with
    | some r => some r
    | none => attrSearchList cs

/-- Attribute search over a forest, in document order. -/
def attrSearchList : List XmlNode → Option (String × String)
  | [] => none
  | c :: cs =>
    match attrSearch c with
    | some r => some r
    | none => attrSearchList cs

end

/-- The element phase of `find_order_number` (app.py lines 76-79), before
normalization: the first name of `searchNames` whose first matching
descendant element has truthy (present and non-empty) text, with that raw
text. -/
def rawElemHit (root : XmlNode) : Option (String × String) :=
  searchNames.findSome? (fun nm =>
    match findDescPair root nm with
    | some (_, e) =>
      match e.text with
      | some s => if s == "" then none else some (s, nm)
      | none => none
    | none => none)

/-- `find_order_number` (app.py lines 66-87): returns the normalized
identifier and the label of where it was found, or `none` (Python
`None, None`). -/
def find_order_number (root : XmlNode) : Option (String × String) :=
  match rawElemHit root with
  | some (s, nm) => some (normalize s, nm)
  | none =>
    match attrSearch root with
    | some (v, a) => some (normalize v, "@" ++ a)
    | none => none

/-! ## `correct_xml` (app.py lines 90-130)

The row of the reference table passed to `correct_xml` is the Python dict
of one CSV row; a missing key raises `KeyError`.  Fields other than the
key column are therefore `Option String` (`none` = column absent).  The
Python function mutates the tree in place and can raise; functionally it
returns `Except String (new tree × corrections)`, the error string being
`str(e)` of the exception raised. -/

/-- One row of the reference table (`commande_data` in app.py). -/
structure Commande where
  num : String
  codeAgence : Option String
  statut : Option String
  classification : Option String
  hrbp : Option String

/-- Replace the first child tagged `tg` by `f` of it (no-op when none). -/
def updateFirst (cs : List XmlNode) (tg : String) (f : XmlNode → XmlNode) : List XmlNode :=
  match cs with
  | [] => []
  | c :: rest => if c.tag == tg then f c :: rest else c :: updateFirst rest tg f

/-- `parent.find(tg)` / `ET.SubElement(parent, tg)` when absent (app.py
lines 101-104, 117-119, 124-126): returns the new children list and
whether a new element was created. -/
def ensureChild (cs : List XmlNode) (tg : String) : List XmlNode × Bool :=
  if (findChild cs tg).isSome then (cs, false)
  else (cs ++ [XmlNode.mk tg [] none none []], true)

/-- Find-or-create a child tagged `tg` and set its text (the
`find`/`SubElement` then `.text = txt` pattern of app.py lines 106-109,
111-114, 117-121, 124-128). -/
def upsertLeaf (cs : List XmlNode) (tg : String) (txt : String) : List XmlNode × Bool :=
  if (findChild cs tg).isSome then (updateFirst cs tg (fun c => c.setText txt), false)
  else (cs ++ [XmlNode.mk tg [] (some txt) none []], true)

/-- The `PositionStatus` body (app.py lines 106-114): ensure `Code` and
`Description` children and set their texts to the first token of
`Statut` and to `Statut` itself. -/
def upsertStatus (ps : XmlNode) (tok full : String) : XmlNode :=
  let cs1 := (upsertLeaf ps.children "Code" tok).1
  let cs2 := (upsertLeaf cs1 "Description" full).1
  ps.setChildren cs2

/-- The body of `correct_xml` acting on the `PositionCharacteristics`
container (app.py lines 100-130): upsert `PositionStatus` (with `Code`
and `Description`), `PositionLevel`, `PositionCoefficient`, collecting
the creation messages in source order.  Errors are the `str(e)` of the
`KeyError`/`IndexError` the Python code raises for a missing column or
an empty `Statut`. -/
def updateContainer (c : XmlNode) (d : Commande) : Except String (XmlNode × List String) :=
  let e1 := ensureChild c.children "PositionStatus"
  match d.statut with
  | none => .error "'Statut'"
  | some st =>
    match pysplitFirst st with
    | none => .error "list index out of range"
    | some tok =>
      let cs2 := updateFirst e1.1 "PositionStatus" (fun ps => upsertStatus ps tok st)
      match d.classification with
      | none => .error "'Classification'"
      | some cl =>
        let e3 := upsertLeaf cs2 "PositionLevel" cl
        match d.hrbp with
        | none => .error "'HRBP'"
        | some hr =>
          let e4 := upsertLeaf e3.1 "PositionCoefficient" hr
          .ok (c.setChildren e4.1,
            (if e1.2 then ["Ajout de PositionStatus"] else [])
              ++ (if e3.2 then ["Ajout de PositionLevel"] else [])
              ++ (if e4.2 then ["Ajout de PositionCoefficient"] else []))

/-- A fresh, empty `PositionCharacteristics` element, as created by
`ET.SubElement(root, "PositionCharacteristics")` (app.py line 97). -/
def freshPC : XmlNode := XmlNode.mk "PositionCharacteristics" [] none none []

/-- `correct_xml` (app.py lines 90-130): find `.//PositionCharacteristics`
or append a fresh one under the root, then upsert the nested tags;
returns the corrected tree and the list of structural-change messages. -/
def correct_xml (root : XmlNode) (d : Commande) : Except String (XmlNode × List String) :=
  match findDescPair root "PositionCharacteristics" with
  | some (π, c) =>
    (updateContainer c d).map (fun r => (setPath root π r.1, r.2))
  | none =>
    (updateContainer freshPC d).map (fun r =>
      (root.setChildren (root.children ++ [r.1]),
       "Création de la section PositionCharacteristics" :: r.2))

/-! ## Serialization and the batch loop (app.py lines 212-308)

`ET.tostring(root, encoding='unicode')` is external library code; it is
modelled by a straightforward injective-on-trees XML printer.  What the
claims use is only that serialization is a function of the tree. -/

mutual

/-- Model of `ET.tostring(elem, encoding='unicode', method='xml')`. -/
def serialize : XmlNode → String
  | .mk t a x tl cs =>
    "<" ++ t
      ++ String.join (a.map (fun kv => " " ++ kv.1 ++ "=\x22" ++ kv.2 ++ "\x22"))
      ++ ">" ++ (x.getD "") ++ serializeList cs ++ "</" ++ t ++ ">" ++ (tl.getD "")

/-- Serialization of a forest. -/
def serializeList : List XmlNode → String
  | [] => ""
  | c :: cs => serialize c ++ serializeList cs

end

/-- One uploaded file after the parse attempt of `parse_xml_content`
(app.py lines 55-63): `ET.fromstring` is external, so an input document
is either a parse failure carrying the parser message or a parsed tree. -/
inductive RawDoc : Type where
  | malformed (msg : String)
  | parsed (t : XmlNode)

/-- The `file_result` dict of the batch loop (app.py lines 219-225). -/
structure FileResult where
  fichier : String
  statut : String
  numCmd : String
  corrections : Nat
  message : String
deriving DecidableEq

/-- `df[df[num_col] == num_cmd]` membership and `.iloc[0]` (app.py lines
257-264): the first row whose key equals the identifier. -/
def findRow (table : List Commande) (num : String) : Option Commande :=
  table.find? (fun r => r.num == num)

/-- The body of the batch loop for one file (app.py lines 219-284):
returns the result row and, when the file was corrected, the
`corrected_files` entry `(name, serialized content)`. -/
def processOne (table : List Commande) (name : String) (doc : RawDoc) :
    FileResult × Option (String × String) :=
  match doc with
  | .malformed e =>
    ({ fichier := name, statut := "❌ Erreur", numCmd := "", corrections := 0,
       message := "Erreur parsing: " ++ e }, none)
  | .parsed root =>
    match find_order_number root with
    | none =>
      ({ fichier := name, statut := "⚠️ Non trouvé", numCmd := "", corrections := 0,
         message := "Numéro de commande introuvable" }, none)
    | some (num, foundIn) =>
      match findRow table num with
      | none =>
        ({ fichier := name, statut := "⚠️ Inconnu", numCmd := num, corrections := 0,
           message := "Commande " ++ num ++ " absente de la base" }, none)
      | some row =>
        match correct_xml root row with
        | .error e =>
          ({ fichier := name, statut := "❌ Erreur", numCmd := num, corrections := 0,
             message := e }, none)
        | .ok (root1, corr) =>
          ({ fichier := name, statut := "✅ Corrigé", numCmd := num,
             corrections := corr.length, message := "Trouvé dans <" ++ foundIn ++ ">" },
           some (name, serialize root1))

/-- The batch loop (app.py lines 212-284): one result row per input in
input order, the corrected files in order, and the running
`total_corrections` accumulator (incremented only on the corrected
path, by the length of the correction list, app.py line 270). -/
def processBatch (table : List Commande) :
    List (String × RawDoc) → List FileResult × List (String × String) × Nat
  | [] => ([], [], 0)
  | d :: ds =>
    let r := processOne table d.1 d.2
    let rest := processBatch table ds
    (r.1 :: rest.1, r.2.toList ++ rest.2.1,
     (if r.1.statut == "✅ Corrigé" then r.1.corrections else 0) + rest.2.2)

/-! ### The statistics block (app.py lines 294-308) -/

/-- `total_files = len(results)`. -/
def totalFiles (rs : List FileResult) : Nat := rs.length

/-- `success_files = len([r for r in results if r['Statut'] == '✅ Corrigé'])`. -/
def successFiles (rs : List FileResult) : Nat :=
  (rs.filter (fun r => r.statut == "✅ Corrigé")).length

/-- `error_files = len([r for r in results if '❌' in r['Statut']])`
(a substring test in Python; `'❌'` is the single character U+274C). -/
def errorFiles (rs : List FileResult) : Nat :=
  (rs.filter (fun r => r.statut.data.contains '❌')).length

/-- Python's `pat in s` substring test, on character lists. -/
def containsSeq (pat : List Char) : List Char → Bool
  | [] => pat.isEmpty
  | c :: cs => pat.isPrefixOf (c :: cs) || containsSeq pat cs

/-- `warning_files = len([r for r in results if '⚠️' in r['Statut']])`
(`'⚠️'` is the two-codepoint sequence U+26A0 U+FE0F). -/
def warningFiles (rs : List FileResult) : Nat :=
  (rs.filter (fun r => containsSeq "⚠️".data r.statut.data)).length

/-! ## Reference-table loading and the demo fallback (app.py 26-52, 138-150) -/

/-- The key-column normalization of `load_data_from_github` (app.py line
46): `df[num_col].astype(str).str.zfill(6)` applied to every row. -/
def loadNormalizeKeys (table : List Commande) : List Commande :=
  table.map (fun r => { r with num := pyzfill r.num 6 })

/-- The hard-coded demonstration table substituted when loading fails
(app.py lines 143-150). -/
def demoTable : List Commande :=
  [ { num := "000054", codeAgence := some "LV2-LV2",
      statut := some "N2 - Niveau 2 (4B +)", classification := some "04B - 225",
      hrbp := some "Gabrielle Humbert" },
    { num := "000646", codeAgence := some "LV2-LV2",
      statut := some "N1 - Niveau 1 (2A / 4A)", classification := some "03B - 195 Equipe",
      hrbp := some "Houria Gherras" } ]

/-- The table the app actually uses (app.py lines 138-150): the loaded
table on success, the demonstration table when `load_data_from_github`
reported an error. -/
def effectiveTable : Except String (List Commande) → List Commande
  | .ok df => df
  | .error _ => demoTable

/-- The whole run: resolve the table (with the demo fallback), then run
the batch loop. -/
def runApp (load : Except String (List Commande)) (docs : List (String × RawDoc)) :
    List FileResult × List (String × String) × Nat :=
  processBatch (effectiveTable load) docs

/-! ## Concrete instances used as witnesses -/

/-- A contract document `<Order><OrderNumber>646</OrderNumber></Order>`
containing none of the `PositionCharacteristics` tags. -/
def doc646 : XmlNode :=
  .mk "Order" [] none none [.mk "OrderNumber" [] (some "646") none []]

/-- The reference record with key `"000646"` (row 2 of the demo table). -/
def row646 : Commande :=
  { num := "000646", codeAgence := some "LV2-LV2",
    statut := some "N1 - Niveau 1 (2A / 4A)", classification := some "03B - 195 Equipe",
    hrbp := some "Houria Gherras" }

/-- The tree `correct_xml doc646 row646` produces. -/
def tree646 : XmlNode :=
  .mk "Order" [] none none
    [.mk "OrderNumber" [] (some "646") none [],
     .mk "PositionCharacteristics" [] none none
       [.mk "PositionStatus" [] none none
          [.mk "Code" [] (some "N1") none [],
           .mk "Description" [] (some "N1 - Niveau 1 (2A / 4A)") none []],
        .mk "PositionLevel" [] (some "03B - 195 Equipe") none [],
        .mk "PositionCoefficient" [] (some "Houria Gherras") none []]]

/-- The four structural-change messages of that run. -/
def corrs646 : List String :=
  ["Création de la section PositionCharacteristics",
   "Ajout de PositionStatus", "Ajout de PositionLevel", "Ajout de PositionCoefficient"]

/-- A document whose only identifier candidate has whitespace-only text. -/
def docBlank : XmlNode :=
  .mk "Order" [] none none [.mk "OrderNumber" [] (some "   ") none []]

/-- Agreement of two optional nodes on every field except the children
(an ancestor of the modified node keeps its tag, attributes, text and
tail). -/
def shallowAgree : Option XmlNode → Option XmlNode → Prop
  | none, none => True
  | some a, some b => a.tag = b.tag ∧ a.attrib = b.attrib ∧ a.text = b.text ∧ a.tail = b.tail
  | _, _ => False

/-- The children list of the container `correct_xml` will work on: those
of the first `.//PositionCharacteristics` hit, or `[]` when the container
has to be created. -/
def containerChildren (root : XmlNode) : List XmlNode :=
  match findDescPair root "PositionCharacteristics" with
  | some (_, c) => c.children
  | none => []

/-- The number of elements among `PositionCharacteristics`,
`PositionStatus`, `PositionLevel`, `PositionCoefficient` that are absent
from the document before correction. -/
def countAbsent (root : XmlNode) : Nat :=
  (if (findDescPair root "PositionCharacteristics").isSome then 0 else 1)
    + (if (findChild (containerChildren root) "PositionStatus").isSome then 0 else 1)
    + (if (findChild (containerChildren root) "PositionLevel").isSome then 0 else 1)
    + (if (findChild (containerChildren root) "PositionCoefficient").isSome then 0 else 1)

/-- The index path of the container element that `correct_xml` modifies
(or of the appended fresh container when none exists). -/
def targetPath (root : XmlNode) : List Nat :=
  match findDescPair root "PositionCharacteristics" with
  | some (π, _) => π
  | none => [root.children.length]

/-- A parse-error row: status `Erreur` with the parsing message marker
of app.py line 234. -/
def isParseError (r : FileResult) : Prop :=
  r.statut = "❌ Erreur" ∧ ("Erreur parsing:".data.isPrefixOf r.message.data) = true

/-- A concrete batch: one well-formed contract and one malformed file. -/
def docsW : List (String × RawDoc) :=
  [("contrat.xml", RawDoc.parsed doc646), ("casse.xml", RawDoc.malformed "mismatched tag")]

/-- The per-element attribute probe of app.py lines 83-85: the candidate
attribute names in order, on one element. -/
def attrProbe (e : XmlNode) : Option (String × String) :=
  attrNames.findSome? (fun nm => (List.lookup nm e.attrib).map (fun v => (v, nm)))

/-- One candidate name of the element phase, as the specification words
it: the first element of that name in document order, kept when its text
is present and non-empty. -/
def elemProbeSpec (root : XmlNode) (nm : String) : Option (String × String) :=
  match (preorderList root.children).find? (fun e => e.tag == nm) with
  | some e =>
    match e.text with
    | some s => if s == "" then none else some (s, nm)
    | none => none
  | none => none

/-- The extractor as the specification words it: probe the five element
names in precedence order against the document-order element list, first
non-empty text wins; only if no element matches, probe the four
attribute names across `root.iter()` in document order; else `None`. -/
def extract_spec (root : XmlNode) : Option (String × String) :=
  match searchNames.findSome? (elemProbeSpec root) with
  | some (s, nm) => some (normalize s, nm)
  | none =>
    match (preorder root).findSome? attrProbe with
    | some (v, nm) => some (normalize v, "@" ++ nm)
    | none => none

/-- A document with no identifier elements or attributes at all. -/
def docNoId : XmlNode :=
  .mk "Order" [("foo", "1")] none none [.mk "Bar" [] (some "x") none []]

/-- A character list with no leading and no trailing Python whitespace. -/
def noWsEdge (l : List Char) : Prop :=
  (∀ c, l.head? = some c → isPySpace c = false)
  ∧ (∀ c, l.reverse.head? = some c → isPySpace c = false)

@[simp] theorem XmlNode.tag_mk (t : String) (a : List (String × String))
    (x tl : Option String) (cs : List XmlNode) : (XmlNode.mk t a x tl cs).tag = t := rfl

@[simp] theorem XmlNode.attrib_mk (t : String) (a : List (String × String))
    (x tl : Option String) (cs : List XmlNode) : (XmlNode.mk t a x tl cs).attrib = a := rfl

@[simp] theorem XmlNode.text_mk (t : String) (a : List (String × String))
    (x tl : Option String) (cs : List XmlNode) : (XmlNode.mk t a x tl cs).text = x := rfl

@[simp] theorem XmlNode.tail_mk (t : String) (a : List (String × String))
    (x tl : Option String) (cs : List XmlNode) : (XmlNode.mk t a x tl cs).tail = tl := rfl

@[simp] theorem XmlNode.children_mk (t : String) (a : List (String × String))
    (x tl : Option String) (cs : List XmlNode) : (XmlNode.mk t a x tl cs).children = cs := rfl

example : pystrip "  646 " = "646" := by decide
example : normalize "54" = "000054" := by decide
example : normalize "-4" = "-00004" := by decide
example : pysplitFirst "N1 - Niveau 1 (2A / 4A)" = some "N1" := by decide
example : pysplitFirst "   " = none := by decide

/-! ## Structural lemmas about the node accessors -/

@[simp] theorem tag_setText (c : XmlNode) (s : String) : (c.setText s).tag = c.tag := by
  cases c; rfl

@[simp] theorem text_setText (c : XmlNode) (s : String) : (c.setText s).text = some s := by
  cases c; rfl

theorem setText_eq_self {c : XmlNode} {s : String} (h : c.text = some s) :
    c.setText s = c := by
  cases c with
  | mk t a x tl cs => simp only [XmlNode.text] at h; simp [XmlNode.setText, h]

@[simp] theorem children_setChildren (n : XmlNode) (cs : List XmlNode) :
    (n.setChildren cs).children = cs := by cases n; rfl

@[simp] theorem tag_setChildren (n : XmlNode) (cs : List XmlNode) :
    (n.setChildren cs).tag = n.tag := by cases n; rfl

@[simp] theorem attrib_setChildren (n : XmlNode) (cs : List XmlNode) :
    (n.setChildren cs).attrib = n.attrib := by cases n; rfl

@[simp] theorem text_setChildren (n : XmlNode) (cs : List XmlNode) :
    (n.setChildren cs).text = n.text := by cases n; rfl

@[simp] theorem tail_setChildren (n : XmlNode) (cs : List XmlNode) :
    (n.setChildren cs).tail = n.tail := by cases n; rfl

@[simp] theorem setChildren_setChildren (n : XmlNode) (a b : List XmlNode) :
    (n.setChildren a).setChildren b = n.setChildren b := by cases n; rfl

theorem setChildren_children (n : XmlNode) : n.setChildren n.children = n := by
  cases n; rfl

/-! ## Lemmas about `findChild`, `updateFirst`, `ensureChild`, `upsertLeaf` -/

theorem findChild_append (cs : List XmlNode) (x : XmlNode) (t : String) :
    findChild (cs ++ [x]) t =
      match findChild cs t with
      | some a => some a
      | none => if x.tag == t then some x else none := by
  induction cs with
  | nil =>
    simp only [findChild, List.nil_append, List.find?]
    cases h : (x.tag == t) <;> simp [h]
  | cons c rest ih =>
    simp only [findChild, List.cons_append, List.find?] at *
    cases h : (c.tag == t) <;> simp [h, ih]

theorem updateFirst_of_none {cs : List XmlNode} {t : String} (f : XmlNode → XmlNode)
    (h : findChild cs t = none) : updateFirst cs t f = cs := by
  induction cs with
  | nil => rfl
  | cons c rest ih =>
    simp only [findChild, List.find?] at h
    cases hc : (c.tag == t) with
    | true => rw [hc] at h; simp at h
    | false =>
      rw [hc] at h
      simp only [updateFirst, hc, Bool.false_eq_true, if_neg, ite_false]
      exact congrArg (c :: ·) (ih h)

theorem updateFirst_eq_self {cs : List XmlNode} {t : String} {a : XmlNode}
    {f : XmlNode → XmlNode} (h : findChild cs t = some a) (hfa : f a = a) :
    updateFirst cs t f = cs := by
  induction cs with
  | nil => simp [findChild] at h
  | cons c rest ih =>
    simp only [findChild, List.find?] at h
    cases hc : (c.tag == t) with
    | true =>
      rw [hc] at h
      simp only [Option.some.injEq] at h
      subst h
      simp [updateFirst, hc, hfa]
    | false =>
      rw [hc] at h
      simp only [updateFirst, hc, Bool.false_eq_true, ite_false]
      exact congrArg (c :: ·) (ih h)

theorem findChild_updateFirst_self {cs : List XmlNode} {t : String}
    {f : XmlNode → XmlNode} (hf : ∀ a, (f a).tag = a.tag) :
    findChild (updateFirst cs t f) t = (findChild cs t).map f := by
  induction cs with
  | nil => simp [findChild, updateFirst]
  | cons c rest ih =>
    cases hc : (c.tag == t) with
    | true =>
      have hfc : ((f c).tag == t) = true := by rw [hf c]; exact hc
      simp [updateFirst, findChild, List.find?, hc, hfc]
    | false =>
      simp only [updateFirst, hc, Bool.false_eq_true, ite_false]
      simp only [findChild, List.find?, hc] at *
      exact ih

theorem findChild_updateFirst_ne {cs : List XmlNode} {t t' : String}
    {f : XmlNode → XmlNode} (hf : ∀ a, (f a).tag = a.tag) (hne : t' ≠ t) :
    findChild (updateFirst cs t f) t' = findChild cs t' := by
  induction cs with
  | nil => rfl
  | cons c rest ih =>
    cases hc : (c.tag == t) with
    | true =>
      have hct : c.tag = t := by simpa using hc
      have h1 : ((f c).tag == t') = false := by
        rw [hf c, hct]; simpa using fun h => hne h.symm
      have h2 : (c.tag == t') = false := by
        rw [hct]; simpa using fun h => hne h.symm
      simp [updateFirst, findChild, List.find?, hc, h1, h2]
    | false =>
      simp only [updateFirst, hc, Bool.false_eq_true, ite_false]
      simp only [findChild, List.find?]
      cases hc' : (c.tag == t') with
      | true => rfl
      | false => exact ih

theorem ensureChild_of_found {cs : List XmlNode} {t : String}
    (h : (findChild cs t).isSome) : ensureChild cs t = (cs, false) := by
  simp [ensureChild, h]

theorem ensureChild_of_none {cs : List XmlNode} {t : String}
    (h : findChild cs t = none) :
    ensureChild cs t = (cs ++ [XmlNode.mk t [] none none []], true) := by
  simp [ensureChild, h]

theorem upsertLeaf_of_none {cs : List XmlNode} {t : String} (s : String)
    (h : findChild cs t = none) :
    upsertLeaf cs t s = (cs ++ [XmlNode.mk t [] (some s) none []], true) := by
  simp [upsertLeaf, h]

theorem upsertLeaf_of_isSome {cs : List XmlNode} {t : String} (s : String)
    (h : (findChild cs t).isSome) :
    upsertLeaf cs t s = (updateFirst cs t (fun c => c.setText s), false) := by
  simp [upsertLeaf, h]

theorem upsertLeaf_found {cs : List XmlNode} {t : String} {a : XmlNode} {s : String}
    (h : findChild cs t = some a) (ha : a.text = some s) :
    upsertLeaf cs t s = (cs, false) := by
  have hs : (findChild cs t).isSome := by rw [h]; rfl
  simp only [upsertLeaf, hs, if_pos]
  rw [updateFirst_eq_self h (setText_eq_self ha)]

theorem findChild_upsertLeaf_self (cs : List XmlNode) (t s : String) :
    ∃ a, findChild (upsertLeaf cs t s).1 t = some a ∧ a.text = some s ∧ a.tag = t := by
  by_cases h : (findChild cs t).isSome
  · obtain ⟨a, ha⟩ := Option.isSome_iff_exists.mp h
    refine ⟨a.setText s, ?_, by simp, ?_⟩
    · simp only [upsertLeaf, h, if_pos]
      rw [findChild_updateFirst_self (fun b => tag_setText b s), ha]; rfl
    · have : a.tag = t := by
        have := List.find?_some ha
        simpa using this
      simp [this]
  · have hn : findChild cs t = none := Option.not_isSome_iff_eq_none.mp h
    refine ⟨XmlNode.mk t [] (some s) none [], ?_, rfl, rfl⟩
    rw [upsertLeaf_of_none s hn]
    rw [findChild_append, hn]
    simp [XmlNode.tag]

theorem findChild_upsertLeaf_ne {t t' : String} (cs : List XmlNode) (s : String)
    (hne : t' ≠ t) : findChild (upsertLeaf cs t s).1 t' = findChild cs t' := by
  by_cases h : (findChild cs t).isSome
  · rw [upsertLeaf_of_isSome s h]
    exact findChild_updateFirst_ne (fun b => tag_setText b s) hne
  · rw [upsertLeaf_of_none s (Option.not_isSome_iff_eq_none.mp h)]
    rw [findChild_append]
    have hx : ((XmlNode.mk t [] (some s) none []).tag == t') = false := by
      simpa [XmlNode.tag] using fun h => hne h.symm
    cases hc : findChild cs t' with
    | some a => rfl
    | none => simp [hx]; exact fun hh => hne hh.symm

theorem findChild_ensureChild_ne {t t' : String} (cs : List XmlNode)
    (hne : t' ≠ t) : findChild (ensureChild cs t).1 t' = findChild cs t' := by
  by_cases h : (findChild cs t).isSome
  · simp [ensureChild, h]
  · rw [ensureChild_of_none (Option.not_isSome_iff_eq_none.mp h)]
    rw [findChild_append]
    have hx : ((XmlNode.mk t [] none none []).tag == t') = false := by
      simpa [XmlNode.tag] using fun h => hne h.symm
    cases hc : findChild cs t' with
    | some a => rfl
    | none => simp [hx]; exact fun hh => hne hh.symm

theorem ensureChild_snd (cs : List XmlNode) (t : String) :
    (ensureChild cs t).2 = !(findChild cs t).isSome := by
  by_cases h : (findChild cs t).isSome <;> simp [ensureChild, h]

theorem upsertLeaf_snd (cs : List XmlNode) (t s : String) :
    (upsertLeaf cs t s).2 = !(findChild cs t).isSome := by
  by_cases h : (findChild cs t).isSome <;> simp [upsertLeaf, h]

theorem findChild_ensureChild_self (cs : List XmlNode) (t : String) :
    ∃ a, findChild (ensureChild cs t).1 t = some a ∧ a.tag = t := by
  by_cases h : (findChild cs t).isSome
  · obtain ⟨a, ha⟩ := Option.isSome_iff_exists.mp h
    refine ⟨a, by simp [ensureChild, h, ha], ?_⟩
    have := List.find?_some ha
    simpa using this
  · have hn : findChild cs t = none := Option.not_isSome_iff_eq_none.mp h
    refine ⟨XmlNode.mk t [] none none [], ?_, rfl⟩
    rw [ensureChild_of_none hn]
    rw [findChild_append, hn]
    simp [XmlNode.tag]

/-! ## Lemmas about `upsertStatus` and `updateContainer` -/

@[simp] theorem tag_upsertStatus (ps : XmlNode) (tok full : String) :
    (upsertStatus ps tok full).tag = ps.tag := by
  simp [upsertStatus]

theorem upsertStatus_fix (ps : XmlNode) (tok full : String) :
    upsertStatus (upsertStatus ps tok full) tok full = upsertStatus ps tok full := by
  obtain ⟨a, ha, hat, _⟩ := findChild_upsertLeaf_self ps.children "Code" tok
  have h1 : findChild (upsertLeaf (upsertLeaf ps.children "Code" tok).1 "Description" full).1
      "Code" = some a := by
    rw [findChild_upsertLeaf_ne _ full (by decide), ha]
  obtain ⟨b, hb, hbt, _⟩ :=
    findChild_upsertLeaf_self (upsertLeaf ps.children "Code" tok).1 "Description" full
  have g1 := upsertLeaf_found h1 hat
  have g2 := upsertLeaf_found hb hbt
  show upsertStatus (ps.setChildren _) tok full = _
  unfold upsertStatus
  simp only [children_setChildren, setChildren_setChildren]
  rw [g1]
  simp only
  rw [g2]

/-- Successful `updateContainer` runs re-applied to their own output make
no further change and report no corrections (the container-level
idempotence of the upsert engine). -/
theorem updateContainer_fix {c : XmlNode} {d : Commande} {c1 : XmlNode} {corr : List String}
    (h : updateContainer c d = .ok (c1, corr)) :
    updateContainer c1 d = .ok (c1, []) := by
  cases hst : d.statut with
  | none => simp [updateContainer, hst] at h
  | some st =>
  cases htok : pysplitFirst st with
  | none => simp [updateContainer, hst, htok] at h
  | some tok =>
  cases hcl : d.classification with
  | none => simp [updateContainer, hst, htok, hcl] at h
  | some cl =>
  cases hhr : d.hrbp with
  | none => simp [updateContainer, hst, htok, hcl, hhr] at h
  | some hr =>
  simp only [updateContainer, hst, htok, hcl, hhr, Except.ok.injEq, Prod.mk.injEq] at h ⊢
  obtain ⟨hc1, -⟩ := h
  -- names for the four successive children lists of the first run
  set f : XmlNode → XmlNode := fun ps => upsertStatus ps tok st with hf
  have hftag : ∀ a, (f a).tag = a.tag := fun a => tag_upsertStatus a tok st
  set cs1 : List XmlNode := (ensureChild c.children "PositionStatus").1 with hcs1
  set cs2 : List XmlNode := updateFirst cs1 "PositionStatus" f with hcs2
  set cs3 : List XmlNode := (upsertLeaf cs2 "PositionLevel" cl).1 with hcs3
  set cs4 : List XmlNode := (upsertLeaf cs3 "PositionCoefficient" hr).1 with hcs4
  have hch : c1.children = cs4 := by rw [← hc1]; simp
  -- the first `PositionStatus` child of cs4 is the upserted one
  obtain ⟨ps0, hps0, -⟩ := findChild_ensureChild_self c.children "PositionStatus"
  have e2 : findChild cs2 "PositionStatus" = some (f ps0) := by
    rw [hcs2, findChild_updateFirst_self hftag, hcs1, hps0]; rfl
  have e3 : findChild cs3 "PositionStatus" = some (f ps0) := by
    rw [hcs3, findChild_upsertLeaf_ne _ cl (by decide), e2]
  have e4 : findChild cs4 "PositionStatus" = some (f ps0) := by
    rw [hcs4, findChild_upsertLeaf_ne _ hr (by decide), e3]
  -- the first `PositionLevel` child of cs4 already holds `cl`
  obtain ⟨b, hbfound, hbtext, -⟩ := findChild_upsertLeaf_self cs2 "PositionLevel" cl
  have l4 : findChild cs4 "PositionLevel" = some b := by
    rw [hcs4, findChild_upsertLeaf_ne _ hr (by decide), hcs3, hbfound]
  -- the first `PositionCoefficient` child of cs4 already holds `hr`
  obtain ⟨e, hefound, hetext, -⟩ := findChild_upsertLeaf_self cs3 "PositionCoefficient" hr
  -- now compute the re-run
  rw [hch]
  rw [ensureChild_of_found (by rw [e4]; rfl)]
  simp only
  rw [updateFirst_eq_self e4 (upsertStatus_fix ps0 tok st)]
  rw [upsertLeaf_found l4 hbtext]
  simp only
  rw [upsertLeaf_found (by rw [hcs4]; exact hefound) hetext]
  simp only
  constructor
  · rw [← hc1]; simp
  · rfl

/-- The tag of the container is preserved by a successful run. -/
theorem updateContainer_tag {c : XmlNode} {d : Commande} {c1 : XmlNode} {corr : List String}
    (h : updateContainer c d = .ok (c1, corr)) : c1.tag = c.tag := by
  cases hst : d.statut with
  | none => simp [updateContainer, hst] at h
  | some st =>
  cases htok : pysplitFirst st with
  | none => simp [updateContainer, hst, htok] at h
  | some tok =>
  cases hcl : d.classification with
  | none => simp [updateContainer, hst, htok, hcl] at h
  | some cl =>
  cases hhr : d.hrbp with
  | none => simp [updateContainer, hst, htok, hcl, hhr] at h
  | some hr =>
  simp only [updateContainer, hst, htok, hcl, hhr, Except.ok.injEq, Prod.mk.injEq] at h
  rw [← h.1]
  simp

/-- The number of correction messages of a successful run is the number
of previously absent children among `PositionStatus`, `PositionLevel`,
`PositionCoefficient`. -/
theorem updateContainer_len {c : XmlNode} {d : Commande} {c1 : XmlNode} {corr : List String}
    (h : updateContainer c d = .ok (c1, corr)) :
    corr.length =
      (if (findChild c.children "PositionStatus").isSome then 0 else 1)
        + (if (findChild c.children "PositionLevel").isSome then 0 else 1)
        + (if (findChild c.children "PositionCoefficient").isSome then 0 else 1) := by
  cases hst : d.statut with
  | none => simp [updateContainer, hst] at h
  | some st =>
  cases htok : pysplitFirst st with
  | none => simp [updateContainer, hst, htok] at h
  | some tok =>
  cases hcl : d.classification with
  | none => simp [updateContainer, hst, htok, hcl] at h
  | some cl =>
  cases hhr : d.hrbp with
  | none => simp [updateContainer, hst, htok, hcl, hhr] at h
  | some hr =>
  simp only [updateContainer, hst, htok, hcl, hhr, Except.ok.injEq, Prod.mk.injEq] at h
  set f : XmlNode → XmlNode := fun ps => upsertStatus ps tok st with hf
  have hftag : ∀ a, (f a).tag = a.tag := fun a => tag_upsertStatus a tok st
  set cs1 : List XmlNode := (ensureChild c.children "PositionStatus").1 with hcs1
  set cs2 : List XmlNode := updateFirst cs1 "PositionStatus" f with hcs2
  set cs3 : List XmlNode := (upsertLeaf cs2 "PositionLevel" cl).1 with hcs3
  have hPL : findChild cs2 "PositionLevel" = findChild c.children "PositionLevel" := by
    rw [hcs2, findChild_updateFirst_ne hftag (by decide), hcs1,
      findChild_ensureChild_ne _ (by decide)]
  have hPC : findChild cs3 "PositionCoefficient"
      = findChild c.children "PositionCoefficient" := by
    rw [hcs3, findChild_upsertLeaf_ne _ cl (by decide), hcs2,
      findChild_updateFirst_ne hftag (by decide), hcs1,
      findChild_ensureChild_ne _ (by decide)]
  rw [← h.2]
  rw [ensureChild_snd, upsertLeaf_snd, upsertLeaf_snd, hPL, hPC]
  by_cases h1 : (findChild c.children "PositionStatus").isSome <;>
    by_cases h2 : (findChild c.children "PositionLevel").isSome <;>
      by_cases h3 : (findChild c.children "PositionCoefficient").isSome <;>
        simp [h1, h2, h3]

/-- `updateContainer` succeeds exactly when the row has a `Statut` with at
least one whitespace-delimited token, a `Classification` and an `HRBP`
column; otherwise the Python code raises. -/
theorem updateContainer_ok_iff (c : XmlNode) (d : Commande) :
    (∃ r, updateContainer c d = .ok r) ↔
      ((∃ st, d.statut = some st ∧ (pysplitFirst st).isSome)
        ∧ d.classification.isSome ∧ d.hrbp.isSome) := by
  unfold updateContainer
  cases hst : d.statut with
  | none => simp
  | some st =>
  cases htok : pysplitFirst st with
  | none => simp [htok]
  | some tok =>
  cases hcl : d.classification with
  | none => simp [htok]
  | some cl =>
  cases hhr : d.hrbp with
  | none => simp [htok]
  | some hr =>
  simp [htok]

/-! ## List index lemmas (self-contained, over `List.get?`/`List.set`) -/

theorem set_get?_self {α : Type} (l : List α) (i : Nat) (a : α)
    (h : l[i]? = some a) : l.set i a = l := by
  induction l generalizing i with
  | nil => simp at h
  | cons x xs ih =>
    cases i with
    | zero => simp at h; simp [List.set, h]
    | succ k => simp only [List.getElem?_cons_succ] at h; simp [List.set, ih k h]

theorem get?_set_self {α : Type} (l : List α) (i : Nat) (a : α)
    (h : l[i]?.isSome) : (l.set i a)[i]? = some a := by
  induction l generalizing i with
  | nil => simp at h
  | cons x xs ih =>
    cases i with
    | zero => simp [List.set]
    | succ k => simpa [List.set] using ih k (by simpa using h)

theorem get?_set_ne {α : Type} (l : List α) (i j : Nat) (a : α)
    (h : i ≠ j) : (l.set i a)[j]? = l[j]? := by
  induction l generalizing i j with
  | nil => simp [List.set]
  | cons x xs ih =>
    cases i with
    | zero =>
      cases j with
      | zero => exact absurd rfl h
      | succ k => simp [List.set]
    | succ k =>
      cases j with
      | zero => simp [List.set]
      | succ m => simpa [List.set] using ih k m (by omega)

/-! ## Path lemmas for `getPath`/`setPath` -/

theorem setPath_setPath (π : List Nat) (t c c' : XmlNode) :
    setPath (setPath t π c) π c' = setPath t π c' := by
  induction π generalizing t with
  | nil => rfl
  | cons i p ih =>
    cases hg : t.children[i]? with
    | none => simp [setPath, hg]
    | some ch =>
      simp only [setPath, hg]
      have hg2 : (t.children.set i (setPath ch p c))[i]? = some (setPath ch p c) :=
        get?_set_self _ i _ (by rw [hg]; rfl)
      simp only [children_setChildren, hg2, setChildren_setChildren]
      rw [ih, List.set_set]

theorem setPath_of_getPath {π : List Nat} {t c : XmlNode}
    (h : getPath t π = some c) : setPath t π c = t := by
  induction π generalizing t with
  | nil => simp only [getPath, Option.some.injEq] at h; rw [setPath, h]
  | cons i p ih =>
    cases hg : t.children[i]? with
    | none => simp [getPath, hg] at h
    | some ch =>
      simp only [getPath, hg] at h
      simp only [setPath, hg]
      rw [ih h, set_get?_self _ _ _ hg, setChildren_children]

/-- A node off the modified path (neither an ancestor nor a descendant of
the target) is untouched by `setPath`. -/
theorem getPath_setPath_off (π : List Nat) (p : List Nat) (t c : XmlNode)
    (h1 : ¬ π <+: p) (h2 : ¬ p <+: π) :
    getPath (setPath t π c) p = getPath t p := by
  induction π generalizing p t with
  | nil => exact absurd (List.nil_prefix) h1
  | cons i π' ih =>
    cases p with
    | nil => exact absurd (List.nil_prefix) h2
    | cons j p' =>
      cases hg : t.children[i]? with
      | none => simp [setPath, hg]
      | some ch =>
        simp only [setPath, hg]
        by_cases hij : i = j
        · subst hij
          have h1' : ¬ π' <+: p' := fun hh => h1 (List.cons_prefix_cons.mpr ⟨rfl, hh⟩)
          have h2' : ¬ p' <+: π' := fun hh => h2 (List.cons_prefix_cons.mpr ⟨rfl, hh⟩)
          have hg2 : (t.children.set i (setPath ch π' c))[i]?
              = some (setPath ch π' c) := get?_set_self _ i _ (by rw [hg]; rfl)
          simp only [getPath, children_setChildren, hg2, hg]
          exact ih p' ch h1' h2'
        · simp only [getPath, children_setChildren, get?_set_ne _ _ _ _ hij]


theorem shallowAgree_refl (o : Option XmlNode) : shallowAgree o o := by
  cases o with
  | none => trivial
  | some a => exact ⟨rfl, rfl, rfl, rfl⟩

/-- A strict ancestor of the modified path keeps all its shallow fields. -/
theorem getPath_setPath_ancestor (π p : List Nat) (t c : XmlNode)
    (hp : p <+: π) (hne : p ≠ π) :
    shallowAgree (getPath (setPath t π c) p) (getPath t p) := by
  induction π generalizing p t with
  | nil => exact absurd (List.prefix_nil.mp hp) hne
  | cons i π' ih =>
    cases p with
    | nil =>
      cases hg : t.children[i]? with
      | none => simp only [setPath, hg]; exact shallowAgree_refl _
      | some ch =>
        simp only [setPath, hg, getPath]
        exact ⟨by simp, by simp, by simp, by simp⟩
    | cons j p' =>
      obtain ⟨hj, hp'⟩ := List.cons_prefix_cons.mp hp
      cases hj
      have hne' : p' ≠ π' := fun hh => hne (by rw [hh])
      cases hg : t.children[i]? with
      | none => simp only [setPath, hg]; exact shallowAgree_refl _
      | some ch =>
        simp only [setPath, hg]
        have hg2 : (t.children.set i (setPath ch π' c))[i]?
            = some (setPath ch π' c) := get?_set_self _ i _ (by rw [hg]; rfl)
        simp only [getPath, children_setChildren, hg2, hg]
        exact ih p' ch hp' hne'

/-! ## Stability of `findIn`/`findInList` under replacement at the found path -/

theorem findIn_self {tg : String} {n : XmlNode} (h : (n.tag == tg) = true) :
    findIn tg n = some ([], n) := by
  cases n with
  | mk t a x tl cs =>
    simp only [XmlNode.tag] at h
    simp [findIn, h]

theorem findIn_cons_path {tg : String} {n : XmlNode} {i : Nat} {p : List Nat} {m : XmlNode}
    (h : findIn tg n = some (i :: p, m)) :
    (n.tag == tg) = false ∧ findInList tg n.children = some (i, p, m) := by
  cases n with
  | mk t a x tl cs =>
    cases ht : (t == tg) with
    | true => simp [findIn, ht] at h
    | false =>
      cases hl : findInList tg cs with
      | none => simp [findIn, ht, hl] at h
      | some r =>
        obtain ⟨i', p', m'⟩ := r
        simp only [findIn, ht, Bool.false_eq_true, if_false, hl] at h
        obtain ⟨⟨e1, e2⟩, e3⟩ := h
        exact ⟨by simpa [XmlNode.tag] using ht, hl⟩

theorem findInList_decomp {tg : String} :
    ∀ {cs : List XmlNode} {i : Nat} {p : List Nat} {m : XmlNode},
      findInList tg cs = some (i, p, m) →
      ∃ ch, cs[i]? = some ch ∧ findIn tg ch = some (p, m) ∧
        ∀ j, j < i → ∀ ch', cs[j]? = some ch' → findIn tg ch' = none := by
  intro cs
  induction cs with
  | nil => intro i p m h; simp [findInList] at h
  | cons c rest ih =>
    intro i p m h
    cases hc : findIn tg c with
    | some r =>
      obtain ⟨p0, m0⟩ := r
      simp only [findInList, hc] at h
      obtain ⟨e1, e2, e3⟩ := h
      exact ⟨c, by simp, hc, fun j hj => absurd hj (Nat.not_lt_zero j)⟩
    | none =>
      cases hr : findInList tg rest with
      | none => simp [findInList, hc, hr] at h
      | some r =>
        obtain ⟨i', p', m'⟩ := r
        simp only [findInList, hc, hr] at h
        obtain ⟨e1, e2, e3⟩ := h
        obtain ⟨ch, h1, h2, h3⟩ := ih hr
        refine ⟨ch, by simpa using h1, h2, ?_⟩
        intro j hj ch' hj'
        cases j with
        | zero =>
          simp only [List.getElem?_cons_zero, Option.some.injEq] at hj'
          rw [← hj']; exact hc
        | succ k =>
          refine h3 k (by omega) ch' (by simpa using hj')

theorem findInList_set {tg : String} :
    ∀ {cs : List XmlNode} {i : Nat} (x : XmlNode) {p' : List Nat} {m' : XmlNode},
      (∀ j, j < i → ∀ ch', cs[j]? = some ch' → findIn tg ch' = none) →
      cs[i]?.isSome →
      findIn tg x = some (p', m') →
      findInList tg (cs.set i x) = some (i, p', m') := by
  intro cs
  induction cs with
  | nil => intro i x p' m' _ hv _; simp at hv
  | cons c rest ih =>
    intro i x p' m' hb hv hx
    cases i with
    | zero =>
      simp only [List.set]
      simp [findInList, hx]
    | succ k =>
      have hc : findIn tg c = none := hb 0 (Nat.succ_pos k) c (by simp)
      have hrec := @ih k x p' m'
        (fun j hj ch' hj' => hb (j + 1) (by omega) ch' (by simpa using hj'))
        (by simpa using hv) hx
      simp [List.set, findInList, hc, hrec]

theorem findIn_setPath {tg : String} :
    ∀ (π : List Nat) (t : XmlNode) {m : XmlNode} (c' : XmlNode),
      findIn tg t = some (π, m) → (c'.tag == tg) = true →
      findIn tg (setPath t π c') = some (π, c') := by
  intro π
  induction π with
  | nil =>
    intro t m c' h hc'
    exact findIn_self hc'
  | cons i p ih =>
    intro t m c' h hc'
    obtain ⟨htag, hl⟩ := findIn_cons_path h
    obtain ⟨ch, hch, hchf, hbefore⟩ := findInList_decomp hl
    have hrec : findIn tg (setPath ch p c') = some (p, c') := ih ch c' hchf hc'
    have hfl : findInList tg (t.children.set i (setPath ch p c')) = some (i, p, c') :=
      findInList_set _ hbefore (by rw [hch]; rfl) hrec
    have hst : setPath t (i :: p) c' = t.setChildren (t.children.set i (setPath ch p c')) := by
      simp [setPath, hch]
    rw [hst]
    cases t with
    | mk tt aa xx tl cs =>
      simp only [XmlNode.tag] at htag
      simp only [XmlNode.children] at hfl
      simp [XmlNode.setChildren, XmlNode.children, findIn, htag, hfl]

theorem findDescPair_setPath {tg : String} {root : XmlNode} {π : List Nat} {m c' : XmlNode}
    (h : findDescPair root tg = some (π, m)) (hc' : (c'.tag == tg) = true) :
    findDescPair (setPath root π c') tg = some (π, c') := by
  cases hl : findInList tg root.children with
  | none => simp [findDescPair, hl] at h
  | some r =>
    obtain ⟨i, p, m0⟩ := r
    simp only [findDescPair, hl] at h
    obtain ⟨e1, e2⟩ := h
    obtain ⟨ch, hch, hchf, hbefore⟩ := findInList_decomp hl
    have hrec : findIn tg (setPath ch p c') = some (p, c') :=
      findIn_setPath p ch c' hchf hc'
    have hfl : findInList tg (root.children.set i (setPath ch p c')) = some (i, p, c') :=
      findInList_set _ hbefore (by rw [hch]; rfl) hrec
    have hst : setPath root (i :: p) c'
        = root.setChildren (root.children.set i (setPath ch p c')) := by
      simp [setPath, hch]
    rw [hst]
    unfold findDescPair
    rw [children_setChildren, hfl]

theorem findInList_append_none {tg : String} {cs : List XmlNode} (x : XmlNode)
    (h : findInList tg cs = none) :
    findInList tg (cs ++ [x]) =
      match findIn tg x with
      | some (p, m) => some (cs.length, p, m)
      | none => none := by
  induction cs with
  | nil =>
    cases hx : findIn tg x with
    | some r => obtain ⟨p, m⟩ := r; simp [findInList, hx]
    | none => simp [findInList, hx]
  | cons c rest ih =>
    have hc : findIn tg c = none := by
      cases hc : findIn tg c with
      | some r => obtain ⟨p, m⟩ := r; simp [findInList, hc] at h
      | none => rfl
    have hrest : findInList tg rest = none := by
      cases hr : findInList tg rest with
      | some r => obtain ⟨i, p, m⟩ := r; simp [findInList, hc, hr] at h
      | none => rfl
    cases hx : findIn tg x with
    | some r =>
      obtain ⟨p, m⟩ := r
      have := ih hrest
      rw [hx] at this
      simp [findInList, hc, this, hx]
    | none =>
      have := ih hrest
      rw [hx] at this
      simp [findInList, hc, this, hx]

theorem findIn_tag {tg : String} :
    ∀ {p : List Nat} {t m : XmlNode}, findIn tg t = some (p, m) → (m.tag == tg) = true := by
  intro p
  induction p with
  | nil =>
    intro t m h
    cases t with
    | mk tt aa xx tl cs =>
      cases ht : (tt == tg) with
      | true =>
        simp only [findIn, ht, if_true] at h
        obtain ⟨e1, e2⟩ := h
        simpa [XmlNode.tag] using ht
      | false =>
        cases hl : findInList tg cs with
        | none => simp [findIn, ht, hl] at h
        | some r => obtain ⟨i, pp, mm⟩ := r; simp [findIn, ht, hl] at h
  | cons i p ih =>
    intro t m h
    obtain ⟨-, hl⟩ := findIn_cons_path h
    obtain ⟨ch, -, hchf, -⟩ := findInList_decomp hl
    exact ih hchf

theorem findDescPair_tag {tg : String} {root : XmlNode} {π : List Nat} {m : XmlNode}
    (h : findDescPair root tg = some (π, m)) : (m.tag == tg) = true := by
  cases hl : findInList tg root.children with
  | none => simp [findDescPair, hl] at h
  | some r =>
    obtain ⟨i, p, m0⟩ := r
    simp only [findDescPair, hl] at h
    obtain ⟨e1, e2⟩ := h
    obtain ⟨ch, -, hchf, -⟩ := findInList_decomp hl
    exact findIn_tag hchf

/-! ## The main `correct_xml` laws -/

/-- Re-running `correct_xml` on its own output with the same record is a
no-op: the document is returned unchanged and the correction list is
empty. -/
theorem correct_xml_fix {root : XmlNode} {d : Commande} {root1 : XmlNode} {corr : List String}
    (h : correct_xml root d = .ok (root1, corr)) :
    correct_xml root1 d = .ok (root1, []) := by
  cases hf : findDescPair root "PositionCharacteristics" with
  | some r =>
    obtain ⟨π, c⟩ := r
    cases hu : updateContainer c d with
    | error e => simp [correct_xml, hf, hu, Except.map] at h
    | ok r1 =>
      obtain ⟨c1, corr1⟩ := r1
      simp only [correct_xml, hf, hu, Except.map, Except.ok.injEq, Prod.mk.injEq] at h
      obtain ⟨h1, h2⟩ := h
      have htag : (c1.tag == "PositionCharacteristics") = true := by
        rw [updateContainer_tag hu]
        exact findDescPair_tag hf
      have hfind : findDescPair (setPath root π c1) "PositionCharacteristics"
          = some (π, c1) := findDescPair_setPath hf htag
      have hfix := updateContainer_fix hu
      rw [← h1]
      simp only [correct_xml, hfind, hfix, Except.map]
      rw [setPath_setPath]
  | none =>
    cases hu : updateContainer freshPC d with
    | error e => simp [correct_xml, hf, hu, Except.map] at h
    | ok r1 =>
      obtain ⟨c1, corr1⟩ := r1
      simp only [correct_xml, hf, hu, Except.map, Except.ok.injEq, Prod.mk.injEq] at h
      obtain ⟨h1, h2⟩ := h
      have htag : (c1.tag == "PositionCharacteristics") = true := by
        rw [updateContainer_tag hu]; rfl
      have hnone : findInList "PositionCharacteristics" root.children = none := by
        cases hl : findInList "PositionCharacteristics" root.children with
        | none => rfl
        | some r => obtain ⟨i, p, m⟩ := r; simp [findDescPair, hl] at hf
      have happ := findInList_append_none c1 hnone
      rw [findIn_self htag] at happ
      have hfd1 : findDescPair (root.setChildren (root.children ++ [c1]))
          "PositionCharacteristics" = some ([root.children.length], c1) := by
        unfold findDescPair
        rw [children_setChildren, happ]
      have hfix := updateContainer_fix hu
      have hget : (root.setChildren (root.children ++ [c1])).children[root.children.length]?
          = some c1 := by
        rw [children_setChildren, List.getElem?_append_right (Nat.le_refl _)]
        simp
      have hset : setPath (root.setChildren (root.children ++ [c1]))
          [root.children.length] c1 = root.setChildren (root.children ++ [c1]) :=
        setPath_of_getPath (by simp [getPath, hget])
      rw [← h1]
      simp only [correct_xml, hfd1, hfix, Except.map, hset]



/-- The correction list of a successful `correct_xml` run has exactly one
entry per previously absent element of the fixed tag group. -/
theorem correct_xml_len {root : XmlNode} {d : Commande} {root1 : XmlNode} {corr : List String}
    (h : correct_xml root d = .ok (root1, corr)) :
    corr.length = countAbsent root := by
  cases hf : findDescPair root "PositionCharacteristics" with
  | some r =>
    obtain ⟨π, c⟩ := r
    cases hu : updateContainer c d with
    | error e => simp [correct_xml, hf, hu, Except.map] at h
    | ok r1 =>
      obtain ⟨c1, corr1⟩ := r1
      simp only [correct_xml, hf, hu, Except.map, Except.ok.injEq, Prod.mk.injEq] at h
      obtain ⟨h1, h2⟩ := h
      rw [← h2]
      rw [updateContainer_len hu]
      unfold countAbsent containerChildren
      rw [hf]
      simp
  | none =>
    cases hu : updateContainer freshPC d with
    | error e => simp [correct_xml, hf, hu, Except.map] at h
    | ok r1 =>
      obtain ⟨c1, corr1⟩ := r1
      simp only [correct_xml, hf, hu, Except.map, Except.ok.injEq, Prod.mk.injEq] at h
      obtain ⟨h1, h2⟩ := h
      rw [← h2]
      have hl := updateContainer_len hu
      simp only [List.length_cons, hl]
      unfold countAbsent containerChildren
      rw [hf]
      simp [freshPC, XmlNode.children, findChild]

/-- `correct_xml` succeeds exactly when `updateContainer` does: the
success condition does not depend on the document. -/
theorem correct_xml_ok_iff (root : XmlNode) (d : Commande) :
    (∃ r, correct_xml root d = .ok r) ↔
      ((∃ st, d.statut = some st ∧ (pysplitFirst st).isSome)
        ∧ d.classification.isSome ∧ d.hrbp.isSome) := by
  cases hf : findDescPair root "PositionCharacteristics" with
  | some r =>
    obtain ⟨π, c⟩ := r
    rw [← updateContainer_ok_iff c d]
    constructor
    · rintro ⟨r1, hr1⟩
      cases hu : updateContainer c d with
      | error e => simp [correct_xml, hf, hu, Except.map] at hr1
      | ok r2 => exact ⟨r2, rfl⟩
    · rintro ⟨r2, hr2⟩
      refine ⟨(setPath root π r2.1, r2.2), ?_⟩
      simp [correct_xml, hf, hr2, Except.map]
  | none =>
    rw [← updateContainer_ok_iff freshPC d]
    constructor
    · rintro ⟨r1, hr1⟩
      cases hu : updateContainer freshPC d with
      | error e => simp [correct_xml, hf, hu, Except.map] at hr1
      | ok r2 => exact ⟨r2, rfl⟩
    · rintro ⟨r2, hr2⟩
      refine ⟨(root.setChildren (root.children ++ [r2.1]),
        "Création de la section PositionCharacteristics" :: r2.2), ?_⟩
      simp [correct_xml, hf, hr2, Except.map]


/-! ## Claim theorems -/

/-- C1: on `doc646` with the `"000646"` record, `correct_xml` creates
`PositionCharacteristics/PositionStatus/{Code,Description}`,
`PositionLevel`, `PositionCoefficient` with the mapped values and reports
exactly 4 changes; in general the change-list length equals the number of
previously absent elements among the four tags (creations of
`Code`/`Description` and value overwrites are not counted). -/
theorem claim_C1_upsert_result :
    correct_xml doc646 row646 = Except.ok (tree646, corrs646)
    ∧ corrs646.length = 4
    ∧ ((findDescPair tree646 "PositionCharacteristics").map (fun r => r.2)).bind
        (fun pc => (findChild pc.children "PositionStatus").bind
          (fun ps => (findChild ps.children "Code").bind (fun e => e.text)))
        = some "N1"
    ∧ ((findDescPair tree646 "PositionCharacteristics").map (fun r => r.2)).bind
        (fun pc => (findChild pc.children "PositionStatus").bind
          (fun ps => (findChild ps.children "Description").bind (fun e => e.text)))
        = some "N1 - Niveau 1 (2A / 4A)"
    ∧ ((findDescPair tree646 "PositionCharacteristics").map (fun r => r.2)).bind
        (fun pc => (findChild pc.children "PositionLevel").bind (fun e => e.text))
        = some "03B - 195 Equipe"
    ∧ ((findDescPair tree646 "PositionCharacteristics").map (fun r => r.2)).bind
        (fun pc => (findChild pc.children "PositionCoefficient").bind (fun e => e.text))
        = some "Houria Gherras"
    ∧ ∀ (root : XmlNode) (d : Commande) (root1 : XmlNode) (corr : List String),
        correct_xml root d = .ok (root1, corr) → corr.length = countAbsent root := by
  refine ⟨rfl, rfl, rfl, rfl, rfl, rfl, ?_⟩
  intro root d root1 corr h
  exact correct_xml_len h

/-- Witness for C1: the general counting law applied to the concrete
document, whose absent-element count evaluates to 4. -/
theorem claim_C1_witness :
    corrs646.length = countAbsent doc646 ∧ countAbsent doc646 = 4 :=
  ⟨claim_C1_upsert_result.2.2.2.2.2.2 doc646 row646 tree646 corrs646 rfl, rfl⟩

/-- C2: applying the engine twice with the same record is a fixed point:
the second application returns an empty change list and the identical
document, so the serialized outputs agree. -/
theorem claim_C2_idempotent :
    ∀ (root : XmlNode) (d : Commande) (root1 : XmlNode) (corr1 : List String),
      correct_xml root d = .ok (root1, corr1) →
      correct_xml root1 d = .ok (root1, ([] : List String))
      ∧ (correct_xml root1 d).map (fun r => serialize r.1) = Except.ok (serialize root1) := by
  intro root d root1 corr1 h
  have hfix := correct_xml_fix h
  exact ⟨hfix, by rw [hfix]; rfl⟩

/-- Witness for C2: the law applied to the concrete corrected document. -/
theorem claim_C2_witness :
    correct_xml tree646 row646 = Except.ok (tree646, ([] : List String)) :=
  (claim_C2_idempotent doc646 row646 tree646 corrs646 rfl).1

/-- C4 counterexample: a record whose `Statut` column is missing (and one
whose `Statut` is empty) makes the engine raise — modelled as an
`Except.error` carrying the Python exception text — rather than skipping
the field. -/
theorem claim_C4_counterexample :
    correct_xml doc646 { row646 with statut := none } = Except.error "'Statut'"
    ∧ correct_xml doc646 { row646 with statut := some "" }
        = Except.error "list index out of range"
    ∧ correct_xml doc646 { row646 with classification := none }
        = Except.error "'Classification'"
    ∧ correct_xml doc646 { row646 with hrbp := none } = Except.error "'HRBP'" :=
  ⟨rfl, rfl, rfl, rfl⟩

/-- C4 amended: the engine fails (raises `KeyError`/`IndexError`, caught
by the batch loop as a per-document error) exactly when the record lacks
the `Statut`, `Classification` or `HRBP` column or its `Statut` has no
whitespace-delimited token; no field is ever skipped. -/
theorem claim_C4_amended :
    ∀ (root : XmlNode) (d : Commande),
      ((∃ r, correct_xml root d = .ok r) ↔
        ((∃ st, d.statut = some st ∧ (pysplitFirst st).isSome)
          ∧ d.classification.isSome ∧ d.hrbp.isSome))
      ∧ (d.statut = none → correct_xml root d = Except.error "'Statut'") := by
  intro root d
  refine ⟨correct_xml_ok_iff root d, ?_⟩
  intro hst
  cases hf : findDescPair root "PositionCharacteristics" with
  | some r =>
    obtain ⟨π, c⟩ := r
    simp [correct_xml, hf, updateContainer, hst, Except.map]
  | none =>
    simp [correct_xml, hf, updateContainer, hst, Except.map]

/-- Witness for C4 amended: the failure condition evaluated at a record
with a missing `Statut` column. -/
theorem claim_C4_witness :
    correct_xml doc646 { row646 with statut := none } = Except.error "'Statut'" :=
  (claim_C4_amended doc646 { row646 with statut := none }).2 rfl

/-- C6: the engine only touches the subtree at the container's path (or
appends the container): every node strictly off that path is bitwise
unchanged, and every strict ancestor of the path keeps its tag,
attributes, text and tail. -/
theorem claim_C6_frame :
    ∀ (root : XmlNode) (d : Commande) (root1 : XmlNode) (corr : List String),
      correct_xml root d = .ok (root1, corr) →
      (∀ p : List Nat, ¬ (targetPath root <+: p) → ¬ (p <+: targetPath root) →
          getPath root1 p = getPath root p)
      ∧ (∀ p : List Nat, p <+: targetPath root → p ≠ targetPath root →
          shallowAgree (getPath root1 p) (getPath root p)) := by
  intro root d root1 corr h
  cases hf : findDescPair root "PositionCharacteristics" with
  | some r =>
    obtain ⟨π, c⟩ := r
    have ht : targetPath root = π := by simp [targetPath, hf]
    cases hu : updateContainer c d with
    | error e => simp [correct_xml, hf, hu, Except.map] at h
    | ok r1 =>
      obtain ⟨c1, corr1⟩ := r1
      simp only [correct_xml, hf, hu, Except.map, Except.ok.injEq, Prod.mk.injEq] at h
      obtain ⟨h1, h2⟩ := h
      rw [ht, ← h1]
      exact ⟨fun p hp1 hp2 => getPath_setPath_off π p root c1 hp1 hp2,
        fun p hp hne => getPath_setPath_ancestor π p root c1 hp hne⟩
  | none =>
    have ht : targetPath root = [root.children.length] := by simp [targetPath, hf]
    cases hu : updateContainer freshPC d with
    | error e => simp [correct_xml, hf, hu, Except.map] at h
    | ok r1 =>
      obtain ⟨c1, corr1⟩ := r1
      simp only [correct_xml, hf, hu, Except.map, Except.ok.injEq, Prod.mk.injEq] at h
      obtain ⟨h1, h2⟩ := h
      rw [ht, ← h1]
      constructor
      · intro p hp1 hp2
        cases p with
        | nil => exact absurd (List.nil_prefix) hp2
        | cons i p' =>
          have hne : i ≠ root.children.length := by
            intro hh
            exact hp1 (List.cons_prefix_cons.mpr ⟨hh.symm, List.nil_prefix⟩)
          have hsame : (root.children ++ [c1])[i]? = root.children[i]? := by
            by_cases hi : i < root.children.length
            · exact List.getElem?_append_left hi
            · have hge : root.children.length + 1 ≤ i := by omega
              rw [List.getElem?_append_right (by omega)]
              rw [List.getElem?_eq_none (by simp; omega),
                List.getElem?_eq_none (by omega)]
          simp only [getPath, children_setChildren, hsame]
      · intro p hp hne
        cases p with
        | nil =>
          simp only [getPath]
          exact ⟨by simp, by simp, by simp, by simp⟩
        | cons j p' =>
          obtain ⟨hj, hp'⟩ := List.cons_prefix_cons.mp hp
          have : p' = [] := List.prefix_nil.mp hp'
          subst this
          cases hj
          exact absurd rfl hne

/-- Witness for C6: framing applied to the concrete run on `doc646`
(the `OrderNumber` child at path `[0]` is untouched, and the root keeps
its shallow fields). -/
theorem claim_C6_witness :
    getPath tree646 [0] = getPath doc646 [0]
    ∧ shallowAgree (getPath tree646 []) (getPath doc646 []) := by
  have hc := claim_C6_frame doc646 row646 tree646 corrs646 rfl
  exact ⟨hc.1 [0] (by decide) (by decide), hc.2 [] (by decide) (by decide)⟩

/-! ## Batch-loop lemmas -/

theorem processBatch_results (table : List Commande) (docs : List (String × RawDoc)) :
    (processBatch table docs).1 = docs.map (fun x => (processOne table x.1 x.2).1) := by
  induction docs with
  | nil => rfl
  | cons d ds ih => simp only [processBatch, List.map_cons, ih]

theorem processBatch_files (table : List Commande) (docs : List (String × RawDoc)) :
    (processBatch table docs).2.1 = docs.filterMap (fun x => (processOne table x.1 x.2).2) := by
  induction docs with
  | nil => rfl
  | cons d ds ih =>
    simp only [processBatch, List.filterMap_cons, ih]
    cases (processOne table d.1 d.2).2 with
    | none => rfl
    | some f => rfl

theorem processBatch_total (table : List Commande) (docs : List (String × RawDoc)) :
    (processBatch table docs).2.2 =
      (docs.map (fun x =>
        if (processOne table x.1 x.2).1.statut == "✅ Corrigé"
        then (processOne table x.1 x.2).1.corrections else 0)).sum := by
  induction docs with
  | nil => rfl
  | cons d ds ih => simp only [processBatch, List.map_cons, List.sum_cons, ih]

/-- Every result row's status is one of the four literal strings of the
source. -/
theorem processOne_statut_cases (table : List Commande) (name : String) (doc : RawDoc) :
    (processOne table name doc).1.statut = "✅ Corrigé"
    ∨ (processOne table name doc).1.statut = "⚠️ Non trouvé"
    ∨ (processOne table name doc).1.statut = "⚠️ Inconnu"
    ∨ (processOne table name doc).1.statut = "❌ Erreur" := by
  cases doc with
  | malformed e => simp [processOne]
  | parsed root =>
    cases hfo : find_order_number root with
    | none => simp [processOne, hfo]
    | some r =>
      obtain ⟨num, fi⟩ := r
      cases hrow : findRow table num with
      | none => simp [processOne, hfo, hrow]
      | some row =>
        cases hcx : correct_xml root row with
        | error e => simp [processOne, hfo, hrow, hcx]
        | ok r2 =>
          obtain ⟨rt, corr⟩ := r2
          simp [processOne, hfo, hrow, hcx]

/-- A result row is `Corrigé` exactly when a corrected file was emitted
for it. -/
theorem processOne_corrected_iff (table : List Commande) (name : String) (doc : RawDoc) :
    ((processOne table name doc).1.statut = "✅ Corrigé")
      ↔ ((processOne table name doc).2).isSome := by
  cases doc with
  | malformed e => simp [processOne]
  | parsed root =>
    cases hfo : find_order_number root with
    | none => simp [processOne, hfo]
    | some r =>
      obtain ⟨num, fi⟩ := r
      cases hrow : findRow table num with
      | none => simp [processOne, hfo, hrow]
      | some row =>
        cases hcx : correct_xml root row with
        | error e => simp [processOne, hfo, hrow, hcx]
        | ok r2 =>
          obtain ⟨rt, corr⟩ := r2
          simp [processOne, hfo, hrow, hcx]

/-- Non-`Corrigé` rows carry a zero correction count. -/
theorem processOne_corrections_eq (table : List Commande) (name : String) (doc : RawDoc) :
    (if (processOne table name doc).1.statut == "✅ Corrigé"
      then (processOne table name doc).1.corrections else 0)
      = (processOne table name doc).1.corrections := by
  cases doc with
  | malformed e => simp [processOne]
  | parsed root =>
    cases hfo : find_order_number root with
    | none => simp [processOne, hfo]
    | some r =>
      obtain ⟨num, fi⟩ := r
      cases hrow : findRow table num with
      | none => simp [processOne, hfo, hrow]
      | some row =>
        cases hcx : correct_xml root row with
        | error e => simp [processOne, hfo, hrow, hcx]
        | ok r2 =>
          obtain ⟨rt, corr⟩ := r2
          simp [processOne, hfo, hrow, hcx]

theorem updateContainer_error_mem {c : XmlNode} {d : Commande} {e : String}
    (h : updateContainer c d = .error e) :
    e = "'Statut'" ∨ e = "list index out of range"
    ∨ e = "'Classification'" ∨ e = "'HRBP'" := by
  cases hst : d.statut with
  | none =>
    simp only [updateContainer, hst, Except.error.injEq] at h
    exact Or.inl h.symm
  | some st =>
  cases htok : pysplitFirst st with
  | none =>
    simp only [updateContainer, hst, htok, Except.error.injEq] at h
    exact Or.inr (Or.inl h.symm)
  | some tok =>
  cases hcl : d.classification with
  | none =>
    simp only [updateContainer, hst, htok, hcl, Except.error.injEq] at h
    exact Or.inr (Or.inr (Or.inl h.symm))
  | some cl =>
  cases hhr : d.hrbp with
  | none =>
    simp only [updateContainer, hst, htok, hcl, hhr, Except.error.injEq] at h
    exact Or.inr (Or.inr (Or.inr h.symm))
  | some hr =>
  simp [updateContainer, hst, htok, hcl, hhr] at h

theorem correct_xml_error_mem {root : XmlNode} {d : Commande} {e : String}
    (h : correct_xml root d = .error e) :
    e = "'Statut'" ∨ e = "list index out of range"
    ∨ e = "'Classification'" ∨ e = "'HRBP'" := by
  cases hf : findDescPair root "PositionCharacteristics" with
  | some r =>
    obtain ⟨π, c⟩ := r
    cases hu : updateContainer c d with
    | error e' =>
      simp only [correct_xml, hf, hu, Except.map, Except.error.injEq] at h
      rw [← h]
      exact updateContainer_error_mem hu
    | ok r1 => simp [correct_xml, hf, hu, Except.map] at h
  | none =>
    cases hu : updateContainer freshPC d with
    | error e' =>
      simp only [correct_xml, hf, hu, Except.map, Except.error.injEq] at h
      rw [← h]
      exact updateContainer_error_mem hu
    | ok r1 => simp [correct_xml, hf, hu, Except.map] at h


theorem isPrefixOf_append_self {α : Type} [BEq α] [LawfulBEq α] (l t : List α) :
    (l.isPrefixOf (l ++ t)) = true := by
  induction l with
  | nil => simp [List.isPrefixOf]
  | cons a as ih => simp [List.isPrefixOf, ih]

theorem processOne_malformed_isParseError (table : List Commande) (name e : String) :
    isParseError (processOne table name (RawDoc.malformed e)).1 := by
  refine ⟨rfl, ?_⟩
  show ("Erreur parsing:".data.isPrefixOf (("Erreur parsing: " ++ e).data)) = true
  have hd : ("Erreur parsing: " ++ e).data
      = "Erreur parsing:".data ++ (' ' :: e.data) := by
    simp [String.data_append]
  rw [hd]
  exact isPrefixOf_append_self _ _

/-- Only the parse branch of the loop produces a parse-error row: a
well-formed document never does, whatever the engine result. -/
theorem processOne_parsed_not_parseError (table : List Commande) (name : String)
    (root : XmlNode) : ¬ isParseError (processOne table name (RawDoc.parsed root)).1 := by
  cases hfo : find_order_number root with
  | none =>
    rintro ⟨hs, -⟩
    simp [processOne, hfo] at hs
  | some r =>
    obtain ⟨num, fi⟩ := r
    cases hrow : findRow table num with
    | none =>
      rintro ⟨hs, -⟩
      simp [processOne, hfo, hrow] at hs
    | some row =>
      cases hcx : correct_xml root row with
      | error e =>
        rintro ⟨-, hm⟩
        have hmsg : (processOne table name (RawDoc.parsed root)).1.message = e := by
          simp [processOne, hfo, hrow, hcx]
        rw [hmsg] at hm
        rcases correct_xml_error_mem hcx with he | he | he | he <;> (rw [he] at hm; simp at hm)
      | ok r2 =>
        obtain ⟨rt, corr⟩ := r2
        rintro ⟨hs, -⟩
        simp [processOne, hfo, hrow, hcx] at hs

theorem map_eraseIdx {α β : Type} (f : α → β) :
    ∀ (l : List α) (k : Nat), (l.eraseIdx k).map f = (l.map f).eraseIdx k := by
  intro l
  induction l with
  | nil => intro k; simp [List.eraseIdx]
  | cons x xs ih =>
    intro k
    cases k with
    | zero => simp [List.eraseIdx]
    | succ m => simp [List.eraseIdx, ih]


/-- C3: the batch loop yields one outcome per input in input order;
`Corrigé` outcomes are exactly those with emitted corrected bytes; a
malformed document yields the only parse-error outcome, and removing it
leaves all other outcomes unchanged. -/
theorem claim_C3_batch_invariants :
    ∀ (table : List Commande) (docs : List (String × RawDoc)) (k : Nat) (fn m : String),
      docs[k]? = some (fn, RawDoc.malformed m) →
      ((processBatch table docs).1.length = docs.length
      ∧ (∀ i : Nat, ((processBatch table docs).1)[i]?
            = (docs[i]?).map (fun x => (processOne table x.1 x.2).1))
      ∧ (∀ name doc, ((processOne table name doc).1.statut = "✅ Corrigé")
            ↔ ((processOne table name doc).2).isSome)
      ∧ isParseError ((processOne table fn (RawDoc.malformed m)).1)
      ∧ (∀ (j : Nat) (fn' : String) (t : XmlNode), docs[j]? = some (fn', RawDoc.parsed t) →
            ¬ isParseError ((processOne table fn' (RawDoc.parsed t)).1))
      ∧ (processBatch table (docs.eraseIdx k)).1 = ((processBatch table docs).1).eraseIdx k) := by
  intro table docs k fn m hk
  refine ⟨?_, ?_, ?_, ?_, ?_, ?_⟩
  · rw [processBatch_results]; simp
  · intro i; rw [processBatch_results]; simp
  · intro name doc; exact processOne_corrected_iff table name doc
  · exact processOne_malformed_isParseError table fn m
  · intro j fn' t hj; exact processOne_parsed_not_parseError table fn' t
  · rw [processBatch_results, processBatch_results, map_eraseIdx]

/-- Witness for C3: the invariants applied to a concrete two-file batch
whose second file is malformed. -/
theorem claim_C3_witness :
    (processBatch demoTable docsW).1.length = 2
    ∧ isParseError ((processOne demoTable "casse.xml" (RawDoc.malformed "mismatched tag")).1)
    ∧ (processBatch demoTable (docsW.eraseIdx 1)).1
        = ((processBatch demoTable docsW).1).eraseIdx 1 := by
  have hc := claim_C3_batch_invariants demoTable docsW 1 "casse.xml" "mismatched tag" rfl
  exact ⟨hc.1, hc.2.2.2.1, hc.2.2.2.2.2⟩

/-- C5 counterexample: with the reference load failing, the app does not
stop — it substitutes the demonstration table and still produces a
per-document outcome (here a successful correction against demo record
`"000646"`), contradicting "processes no documents at all". -/
theorem claim_C5_counterexample :
    (runApp (Except.error "Erreur HTTP 404") [("contrat.xml", RawDoc.parsed doc646)]).1
      = [{ fichier := "contrat.xml", statut := "✅ Corrigé", numCmd := "000646",
           corrections := 4, message := "Trouvé dans <OrderNumber>" }] := rfl

/-- C5 amended: on a load error the app substitutes the built-in
two-record demonstration table and processes every document against it,
one outcome per document, instead of aborting the batch. -/
theorem claim_C5_amended :
    ∀ (e : String) (docs : List (String × RawDoc)),
      runApp (Except.error e) docs = processBatch demoTable docs
      ∧ (runApp (Except.error e) docs).1.length = docs.length
      ∧ demoTable.length = 2 := by
  intro e docs
  refine ⟨rfl, ?_, rfl⟩
  show (processBatch demoTable docs).1.length = docs.length
  rw [processBatch_results]; simp

/-- C9: every aggregate of the statistics block is recomputable from the
outcome rows alone — in particular the separately accumulated
`total_corrections` equals the sum of the per-row counts — and the
substring-based warning/error counters coincide with exact status
counts. -/
theorem claim_C9_stats_pure :
    ∀ (table : List Commande) (docs : List (String × RawDoc)),
      (processBatch table docs).2.2
          = (((processBatch table docs).1).map (fun r => r.corrections)).sum
      ∧ totalFiles ((processBatch table docs).1) = ((processBatch table docs).1).length
      ∧ ((processBatch table docs).1).length = docs.length
      ∧ successFiles ((processBatch table docs).1)
          = (((processBatch table docs).1).filter (fun r => r.statut == "✅ Corrigé")).length
      ∧ warningFiles ((processBatch table docs).1)
          = (((processBatch table docs).1).filter
              (fun r => r.statut == "⚠️ Non trouvé" || r.statut == "⚠️ Inconnu")).length
      ∧ errorFiles ((processBatch table docs).1)
          = (((processBatch table docs).1).filter (fun r => r.statut == "❌ Erreur")).length := by
  intro table docs
  have hmem : ∀ r ∈ (processBatch table docs).1,
      r.statut = "✅ Corrigé" ∨ r.statut = "⚠️ Non trouvé"
      ∨ r.statut = "⚠️ Inconnu" ∨ r.statut = "❌ Erreur" := by
    intro r hr
    rw [processBatch_results] at hr
    obtain ⟨x, -, hx⟩ := List.mem_map.mp hr
    rw [← hx]
    exact processOne_statut_cases table x.1 x.2
  refine ⟨?_, rfl, ?_, rfl, ?_, ?_⟩
  · rw [processBatch_total, processBatch_results, List.map_map]
    congr 1
    refine List.map_congr_left ?_
    intro x _
    exact processOne_corrections_eq table x.1 x.2
  · rw [processBatch_results]; simp
  · unfold warningFiles
    congr 1
    refine List.filter_congr ?_
    intro r hr
    rcases hmem r hr with h | h | h | h <;> rw [h] <;> decide
  · unfold errorFiles
    congr 1
    refine List.filter_congr ?_
    intro r hr
    rcases hmem r hr with h | h | h | h <;> rw [h] <;> decide

/-! ## C7: the extractor as document-order probing -/

/-- Mutual induction over a node and a forest of the nested `XmlNode`
type. -/
theorem xml_ind (P : XmlNode → Prop) (Q : List XmlNode → Prop)
    (hmk : ∀ t a x tl cs, Q cs → P (.mk t a x tl cs))
    (hnil : Q []) (hcons : ∀ c cs, P c → Q cs → Q (c :: cs)) :
    ∀ n, P n :=
  fun n => @XmlNode.rec P Q hmk hnil hcons n

theorem xml_ind_list (P : XmlNode → Prop) (Q : List XmlNode → Prop)
    (hmk : ∀ t a x tl cs, Q cs → P (.mk t a x tl cs))
    (hnil : Q []) (hcons : ∀ c cs, P c → Q cs → Q (c :: cs)) :
    ∀ cs, Q cs := by
  intro cs
  induction cs with
  | nil => exact hnil
  | cons c rest ih => exact hcons c rest (xml_ind P Q hmk hnil hcons c) ih

/-- `preorder` unfolded on an arbitrary node. -/
theorem preorder_def (n : XmlNode) : preorder n = n :: preorderList n.children := by
  cases n; rfl

/-- The recursive subtree search coincides with `find?` over the preorder
(document-order) listing. -/
theorem findInList_eq_preorder (tg : String) :
    ∀ cs, (findInList tg cs).map (fun r => r.2.2)
      = (preorderList cs).find? (fun e => e.tag == tg) := by
  refine xml_ind_list
    (fun n => (findIn tg n).map (fun r => r.2)
      = (preorder n).find? (fun e => e.tag == tg))
    (fun cs => (findInList tg cs).map (fun r => r.2.2)
      = (preorderList cs).find? (fun e => e.tag == tg)) ?_ ?_ ?_
  · intro t a x tl cs hQ
    cases ht : (t == tg) with
    | true =>
      simp only [findIn, ht, if_true, preorder, List.find?_cons, XmlNode.tag_mk]
      rfl
    | false =>
      simp only [findIn, ht, Bool.false_eq_true, if_false, preorder, List.find?_cons,
        XmlNode.tag_mk]
      cases hl : findInList tg cs with
      | none => rw [hl] at hQ; rw [← hQ]; rfl
      | some r =>
        obtain ⟨i, p, m⟩ := r
        rw [hl] at hQ
        rw [← hQ]
        rfl
  · rfl
  · intro c cs hP hQ
    simp only [findInList, preorderList, List.find?_append]
    cases hc : findIn tg c with
    | some r =>
      obtain ⟨p, m⟩ := r
      rw [hc] at hP
      rw [← hP]
      rfl
    | none =>
      rw [hc] at hP
      rw [← hP]
      simp only [Option.none_or]
      cases hl : findInList tg cs with
      | none => rw [hl] at hQ; rw [← hQ]; rfl
      | some r =>
        obtain ⟨i, p, m⟩ := r
        rw [hl] at hQ
        rw [← hQ]
        rfl

/-- The first-hit element (with path dropped) of `root.find(".//tg")` in
document-order terms. -/
theorem findDescPair_snd (root : XmlNode) (tg : String) :
    (findDescPair root tg).map (fun r => r.2)
      = (preorderList root.children).find? (fun e => e.tag == tg) := by
  rw [← findInList_eq_preorder]
  cases hl : findInList tg root.children with
  | none => simp [findDescPair, hl]
  | some r => obtain ⟨i, p, m⟩ := r; simp [findDescPair, hl]


/-- The recursive attribute search coincides with `findSome?` over the
preorder (`root.iter()`) listing. -/
theorem attrSearch_eq_preorder :
    ∀ n, attrSearch n = (preorder n).findSome? attrProbe := by
  refine xml_ind
    (fun n => attrSearch n = (preorder n).findSome? attrProbe)
    (fun cs => attrSearchList cs = (preorderList cs).findSome? attrProbe) ?_ ?_ ?_
  · intro t a x tl cs hQ
    simp only [attrSearch, preorder, List.findSome?_cons]
    cases hp : attrProbe (XmlNode.mk t a x tl cs) with
    | some r =>
      unfold attrProbe at hp
      simp only [XmlNode.attrib] at hp
      rw [hp]
    | none =>
      unfold attrProbe at hp
      simp only [XmlNode.attrib] at hp
      rw [hp, hQ]
  · rfl
  · intro c cs hP hQ
    simp only [attrSearchList, preorderList, List.findSome?_append]
    cases hc : attrSearch c with
    | some r => rw [hc] at hP; rw [← hP]; rfl
    | none =>
      rw [hc] at hP
      rw [← hP, hQ]
      simp [Option.none_or]

/-- `findSome?` only depends on the probe's values on the list. -/
theorem findSome?_congr {α β : Type} (f g : α → Option β) (l : List α)
    (h : ∀ a ∈ l, f a = g a) : l.findSome? f = l.findSome? g := by
  induction l with
  | nil => rfl
  | cons a rest ih =>
    rw [List.findSome?_cons, List.findSome?_cons, h a (by simp)]
    cases g a with
    | some r => rfl
    | none => exact ih (fun b hb => h b (by simp [hb]))



/-- The element phase of the source equals the specification's
document-order probe. -/
theorem rawElemHit_eq_spec (root : XmlNode) :
    rawElemHit root = searchNames.findSome? (elemProbeSpec root) := by
  unfold rawElemHit
  refine findSome?_congr _ _ _ ?_
  intro nm _
  have hd := findDescPair_snd root nm
  unfold elemProbeSpec
  cases hq : findDescPair root nm with
  | none => rw [hq] at hd; rw [← hd]; rfl
  | some r => rw [hq] at hd; rw [← hd]; rfl

/-- C7: the source extractor equals its document-order specification, and
a document with none of the five identifier tags and none of the four
identifier attributes yields `NotFound`. -/
theorem claim_C7_extractor :
    (∀ root, find_order_number root = extract_spec root)
    ∧ (∀ root, (∀ e ∈ preorder root, e.tag ∉ searchNames) →
        (∀ e ∈ preorder root, ∀ kv ∈ e.attrib, kv.1 ∉ attrNames) →
        find_order_number root = none) := by
  constructor
  · intro root
    unfold find_order_number extract_spec
    rw [rawElemHit_eq_spec root, attrSearch_eq_preorder root]
  · intro root h1 h2
    have hel : ∀ nm ∈ searchNames,
        (preorderList root.children).find? (fun e => e.tag == nm) = none := by
      intro nm hnm
      rw [List.find?_eq_none]
      intro e hemem
      have hmem : e ∈ preorder root := by
        rw [preorder_def]
        exact List.mem_cons_of_mem _ hemem
      intro hbeq
      have : e.tag = nm := by simpa using hbeq
      exact h1 e hmem (this ▸ hnm)
    have hraw : rawElemHit root = none := by
      rw [rawElemHit_eq_spec root, List.findSome?_eq_none_iff]
      intro nm hnm
      unfold elemProbeSpec
      rw [hel nm hnm]
    have hattr : attrSearch root = none := by
      rw [attrSearch_eq_preorder root, List.findSome?_eq_none_iff]
      intro e hemem
      unfold attrProbe
      rw [List.findSome?_eq_none_iff]
      intro nm hnm
      have hlk : List.lookup nm e.attrib = none := by
        rw [List.lookup_eq_none_iff]
        intro p hp
        have hnotin : p.1 ∉ attrNames := h2 e hemem p hp
        have hne2 : ¬ nm = p.1 := fun hh => hnotin (hh ▸ hnm)
        simpa using hne2
      rw [hlk]
      rfl
    unfold find_order_number
    rw [hraw, hattr]


/-- Witness for C7: both parts evaluated on concrete documents. -/
theorem claim_C7_witness :
    find_order_number doc646 = extract_spec doc646
    ∧ find_order_number docNoId = none := by
  refine ⟨claim_C7_extractor.1 doc646, ?_⟩
  exact claim_C7_extractor.2 docNoId (by decide) (by decide)

/-! ## C10: the truthiness test precedes trimming -/

theorem normalize_of_strip_empty {s : String} (h : pystrip s = "") :
    normalize s = "000000" := by
  unfold normalize
  rw [h]
  rfl

theorem find_order_number_blank {root : XmlNode} {s nm : String}
    (h1 : rawElemHit root = some (s, nm)) (h2 : pystrip s = "") :
    find_order_number root = some ("000000", nm) := by
  simp only [find_order_number, h1]
  rw [normalize_of_strip_empty h2]

/-- C10: an element whose text is whitespace-only passes the truthiness
test, so extraction succeeds with the identifier `"000000"`; an empty
attribute value behaves likewise; and the orchestrator then looks
`"000000"` up in the table like any other identifier (here: not in the
table, so the outcome is `Inconnu`, not `Non trouvé`). -/
theorem claim_C10_truthiness :
    (∀ (root : XmlNode) (s nm : String),
        rawElemHit root = some (s, nm) → pystrip s = "" →
        find_order_number root = some ("000000", nm))
    ∧ (∀ (root : XmlNode) (a : String),
        rawElemHit root = none → attrSearch root = some ("", a) →
        find_order_number root = some ("000000", "@" ++ a))
    ∧ (∀ (table : List Commande) (name : String) (root : XmlNode) (s nm : String),
        rawElemHit root = some (s, nm) → pystrip s = "" → findRow table "000000" = none →
        (processOne table name (RawDoc.parsed root)).1.statut = "⚠️ Inconnu") := by
  refine ⟨?_, ?_, ?_⟩
  · intro root s nm h1 h2
    exact find_order_number_blank h1 h2
  · intro root a h1 h2
    simp only [find_order_number, h1, h2]
    rfl
  · intro table name root s nm h1 h2 hrow
    have hf := find_order_number_blank h1 h2
    simp [processOne, hf, hrow]

/-- Witness for C10: the whitespace-only `OrderNumber` document. -/
theorem claim_C10_witness :
    find_order_number docBlank = some ("000000", "OrderNumber")
    ∧ (processOne demoTable "blanc.xml" (RawDoc.parsed docBlank)).1.statut = "⚠️ Inconnu" := by
  refine ⟨claim_C10_truthiness.1 docBlank "   " "OrderNumber" rfl rfl, ?_⟩
  exact claim_C10_truthiness.2.2 demoTable "blanc.xml" docBlank "   " "OrderNumber" rfl rfl rfl

/-! ## C8: identifier normalization -/

theorem head?_dropWhile_not {α : Type} (p : α → Bool) :
    ∀ (l : List α) (c : α), (l.dropWhile p).head? = some c → p c = false := by
  intro l
  induction l with
  | nil => intro c hc; simp at hc
  | cons a as ih =>
    intro c hc
    rw [List.dropWhile_cons] at hc
    by_cases hp : p a = true
    · rw [if_pos hp] at hc; exact ih c hc
    · rw [if_neg hp] at hc
      simp only [List.head?_cons, Option.some.injEq] at hc
      rw [← hc]
      simpa using hp


theorem pystripList_noWsEdge (x : List Char) : noWsEdge (pystripList x) := by
  unfold pystripList
  constructor
  · intro c hc
    have hsuf : (x.dropWhile isPySpace).reverse.dropWhile isPySpace
        <:+ (x.dropWhile isPySpace).reverse := List.dropWhile_suffix _
    have hpre : ((x.dropWhile isPySpace).reverse.dropWhile isPySpace).reverse
        <+: x.dropWhile isPySpace := by
      have := List.reverse_prefix.mpr hsuf
      simpa using this
    obtain ⟨t, ht⟩ := hpre
    have hd1head : (x.dropWhile isPySpace).head? = some c := by
      rw [← ht]
      cases hur : ((x.dropWhile isPySpace).reverse.dropWhile isPySpace).reverse with
      | nil => rw [hur] at hc; simp at hc
      | cons c0 cs0 =>
        rw [hur] at hc
        simp only [List.head?_cons, Option.some.injEq] at hc
        simp [hc]
    exact head?_dropWhile_not isPySpace x c hd1head
  · intro c hc
    rw [List.reverse_reverse] at hc
    exact head?_dropWhile_not isPySpace (x.dropWhile isPySpace).reverse c hc

theorem noWsEdge_strip_id {l : List Char} (h : noWsEdge l) : pystripList l = l := by
  unfold pystripList
  have h1 : l.dropWhile isPySpace = l := by
    cases l with
    | nil => rfl
    | cons c cs =>
      rw [List.dropWhile_cons]
      simp [h.1 c rfl]
  rw [h1]
  have h2 : l.reverse.dropWhile isPySpace = l.reverse := by
    cases hr : l.reverse with
    | nil => rfl
    | cons c cs =>
      have hc := h.2 c (by rw [hr]; rfl)
      rw [List.dropWhile_cons]
      simp [hc]
  rw [h2, List.reverse_reverse]

theorem six_le_pyzfillList_length (l : List Char) : 6 ≤ (pyzfillList l 6).length := by
  unfold pyzfillList
  by_cases h : 6 ≤ l.length
  · simp [pyzfillList, h]
  · rw [if_neg h]
    cases l with
    | nil => simp
    | cons c cs =>
      simp only [List.length_cons] at h
      show 6 ≤ (if (c == '+' || c == '-') = true
        then c :: (List.replicate (6 - (cs.length + 1)) '0' ++ cs)
        else List.replicate (6 - (cs.length + 1)) '0' ++ (c :: cs)).length
      by_cases hs : (c == '+' || c == '-') = true
      · rw [if_pos hs]
        simp only [List.length_cons, List.length_append, List.length_replicate]
        omega
      · rw [if_neg hs]
        simp only [List.length_append, List.length_replicate, List.length_cons]
        omega

theorem pyzfillList_of_ge {l : List Char} (h : 6 ≤ l.length) : pyzfillList l 6 = l := by
  unfold pyzfillList
  rw [if_pos h]

theorem replicate_head?_pos {k : Nat} (hk : 0 < k) :
    (List.replicate k '0').head? = some '0' := by
  cases k with
  | zero => omega
  | succ m => rfl

theorem noWsEdge_zfill {l : List Char} (h : noWsEdge l) : noWsEdge (pyzfillList l 6) := by
  by_cases hlen : 6 ≤ l.length
  · rw [pyzfillList_of_ge hlen]; exact h
  · unfold pyzfillList
    rw [if_neg hlen]
    cases l with
    | nil =>
      constructor
      · intro c hc
        simp only [show (List.replicate 6 '0').head? = some '0' from rfl,
          Option.some.injEq] at hc
        simp [← hc, isPySpace]
      · intro c hc
        rw [List.reverse_replicate] at hc
        simp only [show (List.replicate 6 '0').head? = some '0' from rfl,
          Option.some.injEq] at hc
        simp [← hc, isPySpace]
    | cons c0 cs =>
      simp only [List.length_cons] at hlen
      show noWsEdge (if (c0 == '+' || c0 == '-') = true
        then c0 :: (List.replicate (6 - (cs.length + 1)) '0' ++ cs)
        else List.replicate (6 - (cs.length + 1)) '0' ++ (c0 :: cs))
      by_cases hs : (c0 == '+' || c0 == '-') = true
      · rw [if_pos hs]
        constructor
        · intro c hc
          simp only [List.head?_cons, Option.some.injEq] at hc
          rw [← hc]
          exact h.1 c0 rfl
        · intro c hc
          have hrw : (c0 :: (List.replicate (6 - (cs.length + 1)) '0' ++ cs)).reverse
              = cs.reverse ++ (List.replicate (6 - (cs.length + 1)) '0' ++ [c0]) := by
            simp
          rw [hrw, List.head?_append] at hc
          cases hcr : cs.reverse.head? with
          | some c1 =>
            have hl2 : (c0 :: cs).reverse.head? = some c1 := by
              simp [List.reverse_cons, List.head?_append, hcr]
            rw [hcr] at hc
            simp only [Option.or_some, Option.some.injEq] at hc
            rw [← hc]
            exact h.2 c1 hl2
          | none =>
            have hcs : cs = [] := by
              cases cs with
              | nil => rfl
              | cons a as => simp [List.head?_append] at hcr
            subst hcs
            rw [hcr] at hc
            simp only [Option.none_or] at hc
            rw [List.head?_append, replicate_head?_pos (by omega)] at hc
            simp only [Option.or_some, Option.some.injEq] at hc
            simp [← hc, isPySpace]
      · rw [if_neg hs]
        constructor
        · intro c hc
          rw [List.head?_append, replicate_head?_pos (by omega)] at hc
          simp only [Option.or_some, Option.some.injEq] at hc
          simp [← hc, isPySpace]
        · intro c hc
          have hrw : (List.replicate (6 - (cs.length + 1)) '0' ++ (c0 :: cs)).reverse
              = (c0 :: cs).reverse ++ List.replicate (6 - (cs.length + 1)) '0' := by
            simp
          rw [hrw, List.head?_append] at hc
          cases hcr : (c0 :: cs).reverse.head? with
          | some c1 =>
            rw [hcr] at hc
            simp only [Option.or_some, Option.some.injEq] at hc
            rw [← hc]
            exact h.2 c1 hcr
          | none => simp [List.reverse_cons, List.head?_append] at hcr

/-- C8: normalization (strip, then sign-aware zero-fill to width 6) is
idempotent, always yields at least 6 characters, and sends `"54"` to
`"000054"` — whether or not the value is numeric. -/
theorem claim_C8_normalize :
    (∀ i : String, normalize (normalize i) = normalize i)
    ∧ (∀ i : String, 6 ≤ (normalize i).length)
    ∧ normalize "54" = "000054" := by
  refine ⟨?_, ?_, by decide⟩
  · intro i
    show pyzfill (pystrip (normalize i)) 6 = normalize i
    have h0 : (normalize i).data = pyzfillList (pystripList i.data) 6 := rfl
    have hedge : noWsEdge (pyzfillList (pystripList i.data) 6) :=
      noWsEdge_zfill (pystripList_noWsEdge i.data)
    have hstrip : pystrip (normalize i) = normalize i := by
      show String.mk (pystripList (normalize i).data) = normalize i
      rw [h0, noWsEdge_strip_id hedge]
      rfl
    rw [hstrip]
    show String.mk (pyzfillList (normalize i).data 6) = normalize i
    rw [h0, pyzfillList_of_ge (six_le_pyzfillList_length _)]
    rfl
  · intro i
    show 6 ≤ (String.mk (pyzfillList (pystripList i.data) 6)).length
    rw [String.length_mk]
    exact six_le_pyzfillList_length _

end App
